import Mathlib

/-! Shallow embedding and verification of the constant-overlap-add (COLA)
streaming core in `mne/_ola.py`: the window validator `_check_cola`, the
`_COLA` streaming engine together with the `_Storer` output sink, and the
`_Interp2` two-point interpolator.

Floating-point arrays are modelled as lists of rationals (exact
arithmetic), so the "within floating tolerance" clauses of the
specification become exact equalities.  The interpolator's weight curves
use `np.cos`, so that component is modelled over the reals.  Every model
follows the Python control flow of `_ola.py`; NumPy slice arithmetic such
as `xs[off:off+k] += ys` is expressed by the explicit helper `addAt`. -/

namespace OLA

/-- Python `range(a, b, s)` for a positive stride `s`. -/
def rangeUp (a b s : ℕ) : List ℕ :=
  (List.range ((b - a + s - 1) / s)).map fun m => a + m * s

/-- Python `range(a, 0, -s)` for a positive stride `s` (all elements `> 0`). -/
def rangeDown (a s : ℕ) : List ℕ :=
  (List.range ((a + s - 1) / s)).map fun m => a - m * s

/-- NumPy slice accumulation `xs[off : off + len ys] += ys`.  At every call
site in `_ola.py` the slice lies inside `xs`; the definition keeps the
length of `xs` regardless. -/
def addAt (xs : List ℚ) (off : ℕ) (ys : List ℚ) : List ℚ :=
  (List.range xs.length).map fun j =>
    xs.getD j 0 + if off ≤ j ∧ j - off < ys.length then ys.getD (j - off) 0 else 0

/-- The per-sample block sums computed by `_check_cola`:
`np.sum([win[ii*step:(ii+1)*step] for ii in range(nperseg // step)], axis=0)`,
then the tail `win[-(nperseg % step):]` is folded into the head when
`nperseg % step != 0`. -/
def binsums (win : List ℚ) (nperseg step : ℕ) : List ℚ :=
  let blockSum := (List.range (nperseg / step)).foldl
    (fun acc ii => addAt acc 0 ((win.drop (ii * step)).take step))
    (List.replicate step 0)
  if nperseg % step ≠ 0 then
    addAt blockSum 0 (win.drop (win.length - nperseg % step))
  else blockSum

/-- NumPy `np.median` of a one-dimensional array: sort, then take the middle
element (odd length) or the mean of the two middle elements (even length).
`insertionSort` stands in for NumPy's sort (only the sorted order matters). -/
def median (l : List ℚ) : ℚ :=
  let s := l.insertionSort (· ≤ ·)
  if l.length % 2 = 1 then s.getD (l.length / 2) 0
  else (s.getD (l.length / 2 - 1) 0 + s.getD (l.length / 2) 0) / 2

/-- `_check_cola`: the block sums must deviate from their median by at most
`tol`; on success the median is returned as the normalization constant. -/
def checkCola (win : List ℚ) (nperseg step : ℕ) (tol : ℚ) : Except String ℚ :=
  let b := binsums win nperseg step
  let const := median b
  let deviation := (b.map fun x => |x - const|).foldr max 0
  if tol < deviation then
    .error "window type does not provide a constant output"
  else .ok const

/-- Constructor arguments of `_COLA` that the window segmentation plan
depends on (already validated and converted to machine ints). -/
structure COLAParams where
  nTotal : ℕ
  nSamples : ℕ
  nOverlap : ℕ
deriving DecidableEq

/-- Hop size `self._step = self._n_samples - self._n_overlap`. -/
def COLAParams.step (P : COLAParams) : ℕ := P.nSamples - P.nOverlap

/-- Window start offsets `np.arange(0, n_total - n_samples + 1, step)`. -/
def COLAParams.startsL (P : COLAParams) : List ℕ :=
  rangeUp 0 (P.nTotal - P.nSamples + 1) P.step

/-- Window stop offsets: `starts + n_samples`, with `stops[-1] = n_total`. -/
def COLAParams.stopsL (P : COLAParams) : List ℕ :=
  (P.startsL.map (· + P.nSamples)).set (P.startsL.length - 1) P.nTotal

/-- Number of planned windows, `len(self.starts)`. -/
def COLAParams.nWins (P : COLAParams) : ℕ := P.startsL.length

/-- `self.starts[i]`. -/
def COLAParams.startAt (P : COLAParams) (i : ℕ) : ℕ := P.startsL.getD i 0

/-- `self.stops[i]`. -/
def COLAParams.stopAt (P : COLAParams) (i : ℕ) : ℕ := P.stopsL.getD i 0

/-- Output accumulator size `max_len = np.max(self.stops - self.starts)`. -/
def COLAParams.maxLen (P : COLAParams) : ℕ :=
  (List.zipWith (fun b a => b - a) P.stopsL P.startsL).foldr max 0

/-- The plan as `(start, stop)` pairs, for stating coverage properties. -/
def COLAParams.planPairs (P : COLAParams) : List (ℕ × ℕ) :=
  P.startsL.zip P.stopsL

/-- The edge-corrected synthesis window built inside `_COLA.feed` for plan
index `idx`, from the normalized analysis window `w`: the last window is
zero-padded to its (possibly longer) length and hop-shifted copies of `w`
are folded forward (`this_window[offset:] += w[:n_use]`); the first window
folds the trailing overlap back into the leading edge
(`this_window[:offset] += w[-offset:]`). -/
def thisWindowAt (P : COLAParams) (w : List ℚ) (idx : ℕ) : List ℚ :=
  let thisLen := P.stopAt idx - P.startAt idx
  let base :=
    if idx = P.nWins - 1 then
      (rangeUp P.step thisLen P.step).foldl
        (fun acc off => addAt acc off (w.take (thisLen - off)))
        (w ++ List.replicate (thisLen - w.length) 0)
    else w
  if idx = 0 then
    (rangeDown (w.length - P.step) P.step).foldl
      (fun acc off => addAt acc 0 (w.drop (w.length - off))) base
  else base

/-- Mutable state of a `_COLA` run for a single data stream.  The `_Storer`
sink is embedded as its write cursor `storerIdx` plus the trace `writes` of
`(cursor, chunk)` pairs it received, in call order (each `__call__` writes
`outs[idx:stop]` and advances `idx` by the chunk length). -/
structure COLASt where
  idx : ℕ
  inBuf : List ℚ
  outBuf : List ℚ
  writes : List (ℕ × List ℚ)
  storerIdx : ℕ
deriving DecidableEq

/-- Engine state directly after `_COLA.__init__` (the output buffer is
allocated lazily in Python, as `np.zeros(max_len)`; it starts zeroed here). -/
def initSt (P : COLAParams) : COLASt :=
  { idx := 0, inBuf := [], outBuf := List.replicate P.maxLen 0,
    writes := [], storerIdx := 0 }

/-- `self._in_offset`: current window start plus input buffer length. -/
def inOffset (P : COLAParams) (s : COLASt) : ℕ :=
  P.startAt s.idx + s.inBuf.length

/-- One iteration of the processing loop in `_COLA.feed`: extract the
window, run the processing callback `proc` (called with the output range
`store.idx .. store.idx + this_len` like `self._process`), weight by the
edge-corrected window, accumulate, flush `out_buffers[:delta]` to the sink
and shift both buffers by `delta`. -/
def processOne (P : COLAParams) (proc : ℕ → ℕ → List ℚ → List ℚ) (w : List ℚ)
    (s : COLASt) : COLASt :=
  let start := P.startAt s.idx
  let stop := P.stopAt s.idx
  let thisLen := stop - start
  let thisWindow := thisWindowAt P w s.idx
  let thisProc := s.inBuf.take thisLen
  let outs := proc s.storerIdx (s.storerIdx + thisLen) thisProc
  let out := List.zipWith (· * ·) outs thisWindow
  let outBuf := addAt s.outBuf 0 out
  let idx1 := s.idx + 1
  let nextStart := if idx1 < P.nWins then P.startAt idx1 else P.stopAt (P.nWins - 1)
  let delta := nextStart - start
  { idx := idx1,
    inBuf := s.inBuf.drop delta,
    outBuf := outBuf.drop delta ++ List.replicate (min delta outBuf.length) 0,
    writes := s.writes ++ [(s.storerIdx, outBuf.take delta)],
    storerIdx := s.storerIdx + (outBuf.take delta).length }

/-- The `while self._idx < len(self.starts) and self._in_offset >= self.stops[self._idx]`
loop of `_COLA.feed`; `len(self.starts)` windows is always enough fuel. -/
def processLoop (P : COLAParams) (proc : ℕ → ℕ → List ℚ → List ℚ) (w : List ℚ) :
    ℕ → COLASt → COLASt
  | 0, s => s
  | fuel + 1, s =>
    if s.idx < P.nWins ∧ P.stopAt s.idx ≤ inOffset P s then
      processLoop P proc w fuel (processOne P proc w s)
    else s

/-- `_COLA.feed` for one chunk of a single data stream: append to the input
buffer, reject data beyond the declared total
(`self._in_offset > self.stops[-1]`), then run the processing loop.  When
the run is already finished (`self._idx == len(self.starts)`), Python dies
with an `IndexError` reading `self.starts[self._idx]` before appending. -/
def feedC (P : COLAParams) (proc : ℕ → ℕ → List ℚ → List ℚ) (w : List ℚ)
    (s : COLASt) (data : List ℚ) : Except String COLASt :=
  if P.nWins ≤ s.idx then .error "IndexError: run already finished"
  else
    let s1 : COLASt := { s with inBuf := s.inBuf ++ data }
    if P.stopAt (P.nWins - 1) < inOffset P s1 then
      .error "data exceeded expected total buffer size"
    else .ok (processLoop P proc w P.nWins s1)

/-- Feed a sequence of chunks through `_COLA.feed`, stopping at the first
raised error. -/
def runFeeds (P : COLAParams) (proc : ℕ → ℕ → List ℚ → List ℚ) (w : List ℚ) :
    COLASt → List (List ℚ) → Except String COLASt
  | s, [] => .ok s
  | s, d :: ds =>
    match feedC P proc w s d with
    | .error e => .error e
    | .ok s1 => runFeeds P proc w s1 ds

/-- The identity processing callback (returns its input unchanged). -/
def procId : ℕ → ℕ → List ℚ → List ℚ := fun _ _ x => x

/-- Everything the sink received, concatenated in call order. -/
def storedList (s : COLASt) : List ℚ := (s.writes.map Prod.snd).flatten

/-- `Tiles chunks a b`: the `(offset, length)` trace tiles `[a, b)` exactly:
chunks are contiguous, nonempty, in strictly increasing offset order, with
no gaps and no overlaps. -/
def Tiles : List (ℕ × ℕ) → ℕ → ℕ → Prop
  | [], a, b => a = b
  | (off, len) :: rest, a, b => off = a ∧ 0 < len ∧ Tiles rest (a + len) b

/-- `Except` value is an error. -/
def isErr {α : Type} : Except String α → Bool
  | .error _ => true
  | .ok _ => false

/-- `_COLA.__init__` argument validation for a caller-supplied window sample
array `win` (standing for `scipy.signal.get_window(window, n_samples)`).
The arguments arrive as Python ints, hence `ℤ`.  Python has no explicit
check that the hop `n_samples - n_overlap` is positive, but construction
always raises for a non-positive hop (`nperseg // step` dies with
`ZeroDivisionError` for `step == 0`; for `step < 0` either the scalar
`binsums` slice assignment in `_check_cola` raises a `TypeError` or
`self.stops[-1]` raises an `IndexError` on the empty plan), so it is
modelled as an error branch. -/
def colaInit (nTotal nSamples nOverlap : ℤ) (win : List ℚ) (tol : ℚ) :
    Except String (COLAParams × List ℚ) :=
  if nSamples ≤ 0 then .error "n_samples must be > 0" else
  if nOverlap < 0 then .error "n_overlap must be >= 0" else
  if nTotal < 0 then .error "n_total must be >= 0" else
  if nTotal < nSamples then
    .error "Number of samples per window must be at most the total number of samples" else
  if nSamples ≤ nOverlap then .error "non-positive hop: construction raises" else
  match checkCola win nSamples.toNat (nSamples - nOverlap).toNat tol with
  | .error e => .error e
  | .ok const =>
    .ok ({ nTotal := nTotal.toNat, nSamples := nSamples.toNat, nOverlap := nOverlap.toNat },
         win.map (fun x => x / const))

/-- The hop-shifted comb sum of the window at sample `j`: the sum of
`w[j + m*step]` over all shifts that stay inside the window.  This is the
per-sample constant-overlap-add gain; `binsums` computes exactly this for
`j < step`. -/
def combAt (w : List ℚ) (step j : ℕ) : ℚ :=
  ∑ m in Finset.range w.length, if j + m * step < w.length then w.getD (j + m * step) 0 else 0

/-- The part of the comb sum strictly above `j`: what the first-window edge
fold (`this_window[:offset] += w[-offset:]`) adds at sample `j`. -/
def upTail (w : List ℚ) (step j : ℕ) : ℚ :=
  ∑ m in Finset.range w.length,
    if j + (m + 1) * step < w.length then w.getD (j + (m + 1) * step) 0 else 0

/-- The part of the comb sum at or below `j`: the value of the zero-padded,
forward-folded last window (`this_window[offset:] += w[:n_use]`) at `j`. -/
def downAll (w : List ℚ) (step j : ℕ) : ℚ :=
  ∑ k in Finset.range (j + 1),
    if k * step ≤ j ∧ j - k * step < w.length then w.getD (j - k * step) 0 else 0

/-- One term of the hop-shifted comb sum: the window sample `r + i*step`
when it exists (`r` is a residue, `i` a shift index). -/
def combTermAt (w : List ℚ) (step r i : ℕ) : ℚ :=
  if r + i * step < w.length then w.getD (r + i * step) 0 else 0

/-- Contribution of planned window `i` to output sample `t` of a run with
identity callback: the input sample weighted by the edge-corrected window. -/
def windowTerm (P : COLAParams) (w : List ℚ) (fed : List ℚ) (i t : ℕ) : ℚ :=
  if P.startAt i ≤ t ∧ t < P.stopAt i then
    fed.getD t 0 * (thisWindowAt P w i).getD (t - P.startAt i) 0
  else 0

/-- Overlap-add of the first `k` planned windows at output sample `t`. -/
def partialOut (P : COLAParams) (w : List ℚ) (fed : List ℚ) (k t : ℕ) : ℚ :=
  ∑ i in Finset.range k, windowTerm P w fed i t

/-- The total synthesis gain at output sample `t`: the sum of the
edge-corrected window values of every planned window covering `t`. -/
def gainAt (P : COLAParams) (w : List ℚ) (t : ℕ) : ℚ :=
  ∑ i in Finset.range P.nWins,
    if P.startAt i ≤ t ∧ t < P.stopAt i then
      (thisWindowAt P w i).getD (t - P.startAt i) 0
    else 0

/-! Definitions for the `_Interp2` two-point interpolator.  A single value
stream with one real value per control point is modelled; `vals` is the
`values` callable, taking a control point (position) and returning its
value.  The weight curves involve `np.cos`, hence `ℝ`. -/

/-- Mutable cursor of `_Interp2`: absolute output position, index of the
left bracket, and the cached left/right value snapshots (`None` before the
first evaluation). -/
structure I2St where
  pos : ℕ
  leftIdx : ℕ
  left : Option ℝ
  right : Option ℝ

/-- The interpolation weight curve `self._use_interp` for a bracket of
width `span`, as a function of the offset into the bracket:
`none` for `'zero'` (no blend), `np.linspace(1.0, 0.0, span, endpoint=False)`
for `'linear'`, and `np.cos(np.linspace(0, pi/2, span, endpoint=False))**2`
for `'cos2'`/`'hann'`. -/
noncomputable def useInterpCurve (interp : String) (span : ℕ) : Option (ℕ → ℝ) :=
  if interp = "zero" then none
  else if interp = "linear" then some fun k => 1 - (k : ℝ) / (span : ℝ)
  else some fun k => Real.cos ((k : ℝ) * (Real.pi / 2) / (span : ℝ)) ^ 2

/-- One segment of `_Interp2.feed_generator`, materialised the way
`_Interp2.feed` assembles it: `left` at every sample when the weight is
absent, else `left * w + right * (1 - w)` per sample. -/
noncomputable def blendSample (left right : ℝ) (w : Option ℝ) : ℝ :=
  match w with
  | none => left
  | some ω => left * ω + right * (1 - ω)

/-- One iteration of the `for bi, left_idx in enumerate(left_idxs)` loop of
`_Interp2.feed_generator`: advance the bracket when needed, evaluate the
next control point, and emit up to `min(stop, right_point) - position`
blended samples.  The cached `self._use_interp` is recomputed inline (it is
a pure function of the current bracket, so caching is unobservable). -/
noncomputable def phase2Step (cp : List ℕ) (vals : ℕ → ℝ) (interp : String) (stop : ℕ)
    (acc : List (List ℝ) × I2St) (li : ℕ) : List (List ℝ) × I2St :=
  let segs := acc.1
  let s0 := acc.2
  let s :=
    if li ≠ s0.leftIdx ∨ s0.right = none then
      let s1 :=
        if s0.right ≠ none then
          { s0 with left := s0.right, leftIdx := s0.leftIdx + 1 }
        else s0
      { s1 with right := some (vals (cp.getD (s1.leftIdx + 1) 0)) }
    else s0
  let leftPoint := cp.getD s.leftIdx 0
  let rightPoint := cp.getD (s.leftIdx + 1) 0
  let curve := useInterpCurve interp (rightPoint - leftPoint)
  let nUse := min stop rightPoint - s.pos
  if 0 < nUse then
    let interpStart := s.pos - leftPoint
    let seg := (List.range nUse).map fun k =>
      blendSample ((s.left).getD 0) ((s.right).getD 0)
        (curve.map fun wfn => wfn (interpStart + k))
    (segs ++ [seg], { s with pos := s.pos + nUse })
  else (segs, s)

/-- `_Interp2.feed_generator`, with each yielded segment already
materialised: the left zero-order hold, the standard interpolation loop,
then the right zero-order hold.  The produced segments tile the requested
`n_pts` samples in order (the Python asserts on `used`), so their
concatenation is the dense output. -/
noncomputable def feedGen (cp : List ℕ) (vals : ℕ → ℝ) (interp : String)
    (s0 : I2St) (nPts : ℕ) : List (List ℝ) × I2St :=
  let stop := s0.pos + nPts
  let s :=
    if s0.left = none then
      { s0 with left := some (vals (cp.getD 0 0)),
                right := if cp.length = 1 then some (vals (cp.getD 0 0)) else s0.right }
    else s0
  let p1 :=
    if s.pos < cp.getD s.leftIdx 0 then
      let nUse := min (cp.getD s.leftIdx 0 - s.pos) nPts
      ([List.replicate nUse ((s.left).getD 0)], { s with pos := s.pos + nUse })
    else ([], s)
  let s1 := p1.2
  let stopRightIdx := (cp.findIdx? fun p => decide (stop ≤ p)).getD (cp.length - 1)
  let leftIdxs := List.range' s1.leftIdx (stopRightIdx - s1.leftIdx)
  let p2 := leftIdxs.foldl (phase2Step cp vals interp stop) ([], s1)
  let s2 := p2.2
  let p3 :=
    if cp.getD s2.leftIdx 0 ≤ s2.pos ∧ 0 < stop - s2.pos then
      ([List.replicate (stop - s2.pos) ((s2.right).getD 0)], { s2 with pos := stop })
    else ([], s2)
  (p1.1 ++ p2.1 ++ p3.1, p3.2)

/-- `_Interp2.feed`: materialise the generator output into one dense array.
Python's `assert out_arrays is not None` fails exactly when the generator
yielded no segments. -/
noncomputable def interpFeed (cp : List ℕ) (vals : ℕ → ℝ) (interp : String)
    (s0 : I2St) (nPts : ℕ) : Except String (List ℝ × I2St) :=
  let r := feedGen cp vals interp s0 nPts
  if r.1.isEmpty then .error "AssertionError: out_arrays is not None"
  else .ok (r.1.flatten, r.2)

/-- The known interpolation kinds of `_Interp2.__init__`. -/
def knownTypes : List String := ["cos2", "linear", "zero", "hann"]

/-- `_Interp2.__init__` validation.  Control points arrive as Python ints
(`np.array(control_points, int)`), so positions are `ℤ` here; each entry of
`values` models one optional value array whose leading dimension
(`v.shape[0]`) is its length.  `np.unique` is sort-then-deduplicate. -/
def interpInit (controlPoints : List ℤ) (values : List (Option (List ℝ)))
    (interp : String) : Except String Unit :=
  if (controlPoints.insertionSort (· ≤ ·)).dedup ≠ controlPoints then
    .error "Control points must be sorted and unique"
  else if controlPoints.length = 0 then
    .error "Must be at least one control point"
  else if controlPoints.any (· < 0) then
    .error "All control points must be positive"
  else if values.any (fun v => match v with
      | some a => a.length ≠ controlPoints.length
      | none => false) then
    .error "Values must be the same length as the number of control points"
  else if interp ∉ knownTypes then
    .error "interp must be one of the known types"
  else .ok ()

/-- Total number of samples already flushed to the sink once `k` windows
have been processed: the next window start (or `n_total` when done). -/
def flushedLen (P : COLAParams) (k : ℕ) : ℕ :=
  if k < P.nWins then P.startAt k else P.nTotal

/-- The full overlap-add output at sample `t` (identity callback). -/
def totalOut (P : COLAParams) (w : List ℚ) (fed : List ℚ) (t : ℕ) : ℚ :=
  partialOut P w fed P.nWins t

/-- Invariant of a `_COLA` run after a total of `T` samples have been fed,
independent of the processing callback: `idx` counts the fully processed
windows, buffer lengths and the sink cursor/trace are determined by the
flushed prefix. -/
structure ColaInvCore (P : COLAParams) (T : ℕ) (s : COLASt) : Prop where
  hidx : s.idx ≤ P.nWins
  hdone : ∀ i < s.idx, P.stopAt i ≤ T
  hT : T ≤ P.nTotal
  hflush : flushedLen P s.idx ≤ T
  hinlen : s.inBuf.length = T - flushedLen P s.idx
  houtlen : s.outBuf.length = P.maxLen
  hsidx : s.storerIdx = flushedLen P s.idx
  htiles : Tiles (s.writes.map fun pr => (pr.1, pr.2.length)) 0 (flushedLen P s.idx)

/-- Loop exit condition of `_COLA.feed`: either all windows are done or the
fed data does not reach the next window stop. -/
def ColaPost (P : COLAParams) (T : ℕ) (s : COLASt) : Prop :=
  s.idx = P.nWins ∨ T < P.stopAt s.idx

/-- Full invariant of a `_COLA` run with the identity callback: on top of
the core invariant, the input buffer is the unconsumed suffix of the fed
data, the output accumulator holds the partial overlap-add sums of the
processed windows, and the sink holds the finished overlap-add prefix. -/
structure ColaInvId (P : COLAParams) (w : List ℚ) (fed : List ℚ) (s : COLASt) : Prop where
  core : ColaInvCore P fed.length s
  hin : s.inBuf = fed.drop (flushedLen P s.idx)
  hout : ∀ j < P.maxLen, s.outBuf.getD j 0
      = partialOut P w fed s.idx (flushedLen P s.idx + j)
  hstored : storedList s
      = (List.range (flushedLen P s.idx)).map fun u => totalOut P w fed u

/-! Basic lemmas about `List.getD`, `addAt` and the Python ranges. -/

theorem getD_as_get? {α : Type} (l : List α) (j : ℕ) (d : α) :
    l.getD j d = (l.get? j).getD d := rfl

theorem getD_of_len_le {α : Type} {l : List α} {j : ℕ} (d : α) (h : l.length ≤ j) :
    l.getD j d = d := by
  rw [getD_as_get?, List.get?_len_le h]; rfl

theorem getD_replicate {α : Type} (x d : α) {n j : ℕ} (h : j < n) :
    (List.replicate n x).getD j d = x := by
  induction n generalizing j with
  | zero => omega
  | succ n ih =>
    cases j with
    | zero => rfl
    | succ j => simpa [List.replicate_succ] using ih (by omega)

theorem getD_range_map {α : Type} (f : ℕ → α) (d : α) {n j : ℕ} (h : j < n) :
    ((List.range n).map f).getD j d = f j := by
  rw [getD_as_get?, List.get?_map, List.get?_range h]; rfl

theorem getD_append_left {α : Type} {l m : List α} (d : α) {j : ℕ} (h : j < l.length) :
    (l ++ m).getD j d = l.getD j d := by
  rw [getD_as_get?, List.get?_append h, getD_as_get?]

theorem getD_append_right {α : Type} {l m : List α} (d : α) {j : ℕ} (h : l.length ≤ j) :
    (l ++ m).getD j d = m.getD (j - l.length) d := by
  rw [getD_as_get?, List.get?_append_right h, getD_as_get?]

theorem getD_drop {α : Type} (l : List α) (d : α) (n j : ℕ) :
    (l.drop n).getD j d = l.getD (n + j) d := by
  rw [getD_as_get?, List.get?_drop, getD_as_get?]

theorem getD_take {α : Type} (l : List α) (d : α) {n j : ℕ} (h : j < n) :
    (l.take n).getD j d = l.getD j d := by
  rw [getD_as_get?, List.get?_take h, getD_as_get?]

theorem getD_take_of_le {α : Type} (l : List α) (d : α) {n j : ℕ} (h : n ≤ j) :
    (l.take n).getD j d = d := by
  refine getD_of_len_le d ?_
  have := l.length_take n
  omega

theorem getD_zipWith (f : ℚ → ℚ → ℚ) (a b : List ℚ) {j : ℕ}
    (h : j < a.length) (h2 : j < b.length) :
    (List.zipWith f a b).getD j 0 = f (a.getD j 0) (b.getD j 0) := by
  induction a generalizing b j with
  | nil => simp at h
  | cons x xs ih =>
    cases b with
    | nil => simp at h2
    | cons y ys =>
      cases j with
      | zero => rfl
      | succ j =>
        simpa [List.zipWith] using ih ys (by simpa using h) (by simpa using h2)

theorem length_addAt (xs : List ℚ) (off : ℕ) (ys : List ℚ) :
    (addAt xs off ys).length = xs.length := by
  simp [addAt]

theorem getD_addAt (xs : List ℚ) (off : ℕ) (ys : List ℚ) {j : ℕ} (h : j < xs.length) :
    (addAt xs off ys).getD j 0 =
      xs.getD j 0 + if off ≤ j ∧ j - off < ys.length then ys.getD (j - off) 0 else 0 :=
  getD_range_map _ _ h

theorem length_foldl_addAt {α : Type} (l : List α) (o : α → ℕ) (g : α → List ℚ)
    (base : List ℚ) :
    (l.foldl (fun acc x => addAt acc (o x) (g x)) base).length = base.length := by
  induction l generalizing base with
  | nil => rfl
  | cons a as ih => rw [List.foldl_cons, ih, length_addAt]

theorem getD_foldl_addAt {α : Type} (l : List α) (o : α → ℕ) (g : α → List ℚ)
    (base : List ℚ) {j : ℕ} (h : j < base.length) :
    (l.foldl (fun acc x => addAt acc (o x) (g x)) base).getD j 0 =
      base.getD j 0 + (l.map fun x =>
        if o x ≤ j ∧ j - o x < (g x).length then (g x).getD (j - o x) 0 else 0).sum := by
  induction l generalizing base with
  | nil => simp
  | cons a as ih =>
    rw [List.foldl_cons, List.map_cons, List.sum_cons,
        ih _ (by rw [length_addAt]; exact h), getD_addAt _ _ _ h]
    ring

theorem length_rangeUp (a b s : ℕ) : (rangeUp a b s).length = (b - a + s - 1) / s := by
  simp [rangeUp]

theorem sum_map_rangeUp (a b s : ℕ) (g : ℕ → ℚ) :
    ((rangeUp a b s).map g).sum = ∑ m in Finset.range ((b - a + s - 1) / s), g (a + m * s) := by
  rw [rangeUp, List.map_map]; rfl

theorem sum_map_rangeDown (a s : ℕ) (g : ℕ → ℚ) :
    ((rangeDown a s).map g).sum = ∑ m in Finset.range ((a + s - 1) / s), g (a - m * s) := by
  rw [rangeDown, List.map_map]; rfl

theorem foldr_max_le {l : List ℕ} {v : ℕ} (h : ∀ x ∈ l, x ≤ v) : l.foldr max 0 ≤ v := by
  induction l with
  | nil => simp
  | cons a as ih =>
    simp only [List.foldr_cons, max_le_iff]
    exact ⟨h a (by simp), ih fun x hx => h x (by simp [hx])⟩

theorem le_foldr_max {l : List ℕ} {x : ℕ} (h : x ∈ l) : x ≤ l.foldr max 0 := by
  induction l with
  | nil => simp at h
  | cons a as ih =>
    rcases List.mem_cons.1 h with rfl | hx
    · exact le_max_left _ _
    · exact le_trans (ih hx) (le_max_right _ _)

/-! Closed forms for the window segmentation plan of `_COLA.__init__`. -/

theorem nWins_eq (P : COLAParams) (h1 : P.nOverlap < P.nSamples) :
    P.nWins = (P.nTotal - P.nSamples) / P.step + 1 := by
  have hstep : 0 < P.step := by
    unfold COLAParams.step; omega
  unfold COLAParams.nWins COLAParams.startsL
  rw [length_rangeUp]
  have hv : P.nTotal - P.nSamples + 1 - 0 + P.step - 1
      = P.nTotal - P.nSamples + P.step := by omega
  rw [hv, Nat.add_div_right _ hstep]

theorem nWins_pos (P : COLAParams) (h1 : P.nOverlap < P.nSamples) : 0 < P.nWins := by
  rw [nWins_eq P h1]; exact Nat.succ_pos _

theorem startAt_eq (P : COLAParams) (h1 : P.nOverlap < P.nSamples) {i : ℕ}
    (hi : i < P.nWins) : P.startAt i = i * P.step := by
  unfold COLAParams.startAt COLAParams.startsL rangeUp
  unfold COLAParams.nWins COLAParams.startsL rangeUp at hi
  rw [List.length_map, List.length_range] at hi
  rw [getD_range_map _ _ hi]
  omega

theorem length_stopsL (P : COLAParams) : P.stopsL.length = P.nWins := by
  unfold COLAParams.stopsL COLAParams.nWins
  rw [List.length_set, List.length_map]

theorem get?_startsL (P : COLAParams) {i : ℕ} (hi : i < P.nWins) :
    P.startsL.get? i = some (0 + i * P.step) := by
  have hi2 : i < (P.nTotal - P.nSamples + 1 - 0 + P.step - 1) / P.step := by
    have hw : P.nWins = (P.nTotal - P.nSamples + 1 - 0 + P.step - 1) / P.step := by
      unfold COLAParams.nWins COLAParams.startsL
      rw [length_rangeUp]
    omega
  unfold COLAParams.startsL rangeUp
  rw [List.get?_map, List.get?_range hi2]
  rfl

theorem stopAt_last (P : COLAParams) (h1 : P.nOverlap < P.nSamples) :
    P.stopAt (P.nWins - 1) = P.nTotal := by
  have hn := nWins_pos P h1
  have hw : P.nWins = P.startsL.length := rfl
  unfold COLAParams.stopAt COLAParams.stopsL
  rw [getD_as_get?, hw, List.get?_set_eq_of_lt]
  · rfl
  · rw [List.length_map]; omega

theorem stopAt_eq_of_lt_last (P : COLAParams) (h1 : P.nOverlap < P.nSamples) {i : ℕ}
    (hi : i < P.nWins - 1) : P.stopAt i = i * P.step + P.nSamples := by
  have hw : P.nWins = P.startsL.length := rfl
  unfold COLAParams.stopAt COLAParams.stopsL
  rw [getD_as_get?, List.get?_set_ne]
  · rw [List.get?_map, get?_startsL P (by omega)]
    have hval : ((some (0 + i * P.step)).map (· + P.nSamples)).getD 0
        = 0 + i * P.step + P.nSamples := rfl
    rw [hval]; omega
  · omega

theorem startLast_add_le (P : COLAParams) (h1 : P.nOverlap < P.nSamples)
    (h2 : P.nSamples ≤ P.nTotal) :
    (P.nWins - 1) * P.step + P.nSamples ≤ P.nTotal := by
  rw [nWins_eq P h1, Nat.succ_sub_one]
  have := Nat.div_mul_le_self (P.nTotal - P.nSamples) P.step
  omega

theorem thisLen_interior (P : COLAParams) (h1 : P.nOverlap < P.nSamples) {i : ℕ}
    (hi : i < P.nWins - 1) : P.stopAt i - P.startAt i = P.nSamples := by
  rw [stopAt_eq_of_lt_last P h1 hi, startAt_eq P h1 (by omega)]
  omega

theorem thisLen_last (P : COLAParams) (h1 : P.nOverlap < P.nSamples)
    (h2 : P.nSamples ≤ P.nTotal) :
    P.stopAt (P.nWins - 1) - P.startAt (P.nWins - 1)
      = P.nSamples + (P.nTotal - P.nSamples) % P.step := by
  have hn := nWins_pos P h1
  rw [stopAt_last P h1, startAt_eq P h1 (by omega), nWins_eq P h1, Nat.succ_sub_one]
  have hdm : (P.nTotal - P.nSamples) / P.step * P.step + (P.nTotal - P.nSamples) % P.step
      = P.nTotal - P.nSamples := Nat.div_add_mod' _ _
  generalize hA : (P.nTotal - P.nSamples) / P.step * P.step = A at hdm ⊢
  omega

theorem nSamples_le_thisLen_last (P : COLAParams) (h1 : P.nOverlap < P.nSamples)
    (h2 : P.nSamples ≤ P.nTotal) :
    P.nSamples ≤ P.stopAt (P.nWins - 1) - P.startAt (P.nWins - 1) := by
  rw [thisLen_last P h1 h2]; omega

theorem stopAt_le_nTotal (P : COLAParams) (h1 : P.nOverlap < P.nSamples)
    (h2 : P.nSamples ≤ P.nTotal) {i : ℕ} (hi : i < P.nWins) :
    P.stopAt i ≤ P.nTotal := by
  rcases Nat.lt_or_ge i (P.nWins - 1) with hlt | hge
  · rw [stopAt_eq_of_lt_last P h1 hlt]
    have hm : i * P.step ≤ (P.nWins - 1) * P.step :=
      Nat.mul_le_mul_right _ (by omega)
    have := startLast_add_le P h1 h2
    omega
  · have : i = P.nWins - 1 := by omega
    rw [this, stopAt_last P h1]

theorem stopAt_lt_of_lt (P : COLAParams) (h1 : P.nOverlap < P.nSamples)
    (h2 : P.nSamples ≤ P.nTotal) {i j : ℕ} (hij : i < j) (hj : j < P.nWins) :
    P.stopAt i < P.stopAt j := by
  have hstep : 0 < P.step := by unfold COLAParams.step; omega
  rcases Nat.lt_or_ge j (P.nWins - 1) with hlt | hge
  · rw [stopAt_eq_of_lt_last P h1 hlt, stopAt_eq_of_lt_last P h1 (by omega)]
    have : i * P.step < j * P.step := Nat.mul_lt_mul_of_lt_of_le hij (le_refl _) hstep
    omega
  · have hj2 : j = P.nWins - 1 := by omega
    subst hj2
    rw [stopAt_last P h1, stopAt_eq_of_lt_last P h1 (by omega)]
    have hm : i * P.step + P.step ≤ (P.nWins - 1) * P.step := by
      have : i + 1 ≤ P.nWins - 1 := by omega
      calc i * P.step + P.step = (i + 1) * P.step := by ring
        _ ≤ (P.nWins - 1) * P.step := Nat.mul_le_mul_right _ this
    have := startLast_add_le P h1 h2
    omega

theorem stopAt_le_of_le (P : COLAParams) (h1 : P.nOverlap < P.nSamples)
    (h2 : P.nSamples ≤ P.nTotal) {i j : ℕ} (hij : i ≤ j) (hj : j < P.nWins) :
    P.stopAt i ≤ P.stopAt j := by
  rcases Nat.lt_or_ge i j with hlt | hge
  · exact le_of_lt (stopAt_lt_of_lt P h1 h2 hlt hj)
  · have : i = j := by omega
    rw [this]

theorem get?_zipWith_nat (f : ℕ → ℕ → ℕ) (a b : List ℕ) {j : ℕ}
    (h : j < a.length) (h2 : j < b.length) :
    (List.zipWith f a b).get? j = some (f (a.getD j 0) (b.getD j 0)) := by
  induction a generalizing b j with
  | nil => simp at h
  | cons x xs ih =>
    cases b with
    | nil => simp at h2
    | cons y ys =>
      cases j with
      | zero => rfl
      | succ j =>
        simpa [List.zipWith] using ih ys (by simpa using h) (by simpa using h2)

theorem length_startsL (P : COLAParams) : P.startsL.length = P.nWins := rfl

theorem maxLen_eq (P : COLAParams) (h1 : P.nOverlap < P.nSamples)
    (h2 : P.nSamples ≤ P.nTotal) :
    P.maxLen = P.stopAt (P.nWins - 1) - P.startAt (P.nWins - 1) := by
  have hn := nWins_pos P h1
  unfold COLAParams.maxLen
  apply le_antisymm
  · apply foldr_max_le
    intro x hx
    rcases List.mem_iff_get?.1 hx with ⟨n, hg⟩
    have hlen : n < P.nWins := by
      rcases List.get?_eq_some.1 hg with ⟨hlt, _⟩
      rw [List.length_zipWith, length_stopsL, length_startsL] at hlt
      omega
    rw [get?_zipWith_nat _ _ _ (by rw [length_stopsL]; omega)
      (by rw [length_startsL]; omega)] at hg
    have hx2 : x = P.stopAt n - P.startAt n := by
      have := Option.some_injective _ hg
      exact this.symm
    subst hx2
    rcases Nat.lt_or_ge n (P.nWins - 1) with hlt | hge
    · have hi := thisLen_interior P h1 hlt
      have hl := nSamples_le_thisLen_last P h1 h2
      omega
    · have : n = P.nWins - 1 := by omega
      rw [this]
  · apply le_foldr_max
    apply List.get?_mem (n := P.nWins - 1)
    rw [get?_zipWith_nat _ _ _ (by rw [length_stopsL]; omega) (by rw [length_startsL]; omega)]
    rfl

theorem startAt_succ (P : COLAParams) (h1 : P.nOverlap < P.nSamples) {i : ℕ}
    (hi : i + 1 < P.nWins) : P.startAt (i + 1) = P.startAt i + P.step := by
  rw [startAt_eq P h1 hi, startAt_eq P h1 (by omega)]
  ring

/-- C3: for every valid `(n_total, n_samples, n_overlap)` with
`n_overlap < n_samples <= n_total`, the window segmentation plan starts at 0,
advances with stride `n_samples - n_overlap`, is contiguous (each next start
is at most the previous stop), ends exactly at `n_total`, every range except
the last has length `n_samples`, and the last absorbs the remainder; for
`n_total=27, n_samples=10, n_overlap=5` the ranges are
`[0,10), [5,15), [10,20), [15,27)`. -/
theorem plan_coverage :
    (∀ P : COLAParams, P.nOverlap < P.nSamples → P.nSamples ≤ P.nTotal →
      P.startAt 0 = 0 ∧
      P.stopAt (P.nWins - 1) = P.nTotal ∧
      (∀ i, i + 1 < P.nWins → P.startAt (i + 1) = P.startAt i + P.step) ∧
      (∀ i, i + 1 < P.nWins → P.startAt (i + 1) ≤ P.stopAt i) ∧
      (∀ i, i < P.nWins - 1 → P.stopAt i = P.startAt i + P.nSamples) ∧
      P.stopAt (P.nWins - 1) - P.startAt (P.nWins - 1)
        = P.nSamples + (P.nTotal - P.nSamples) % P.step) ∧
    COLAParams.planPairs ⟨27, 10, 5⟩ = [(0, 10), (5, 15), (10, 20), (15, 27)] := by
  constructor
  · intro P h1 h2
    have hn := nWins_pos P h1
    refine ⟨?_, stopAt_last P h1, fun i hi => startAt_succ P h1 hi, ?_, ?_, thisLen_last P h1 h2⟩
    · rw [startAt_eq P h1 (by omega)]; ring
    · intro i hi
      rw [startAt_succ P h1 hi, stopAt_eq_of_lt_last P h1 (by omega),
        startAt_eq P h1 (by omega)]
      have hs : P.step ≤ P.nSamples := by unfold COLAParams.step; omega
      omega
    · intro i hi
      rw [stopAt_eq_of_lt_last P h1 hi, startAt_eq P h1 (by omega)]
  · decide

/-- Witness for C3 at the specified example `n_total=27, n_samples=10,
n_overlap=5`. -/
theorem plan_coverage_witness :
    COLAParams.startAt ⟨27, 10, 5⟩ 0 = 0 ∧
    COLAParams.stopAt ⟨27, 10, 5⟩ (COLAParams.nWins ⟨27, 10, 5⟩ - 1) = 27 :=
  ⟨(plan_coverage.1 ⟨27, 10, 5⟩ (by decide) (by decide)).1,
   (plan_coverage.1 ⟨27, 10, 5⟩ (by decide) (by decide)).2.1⟩

/-! The `_check_cola` validator: block sums, median, and the error
condition. -/

theorem sum_range_ext (g : ℕ → ℚ) {a b : ℕ} (hab : a ≤ b) (h : ∀ m, a ≤ m → g m = 0) :
    ∑ m in Finset.range b, g m = ∑ m in Finset.range a, g m :=
  (Finset.sum_subset (Finset.range_subset.2 hab)
    (fun x _ hnx => h x (by simpa using hnx))).symm

theorem length_binsums (win : List ℚ) (L step : ℕ) :
    (binsums win L step).length = step := by
  unfold binsums
  have hb : ((List.range (L / step)).foldl
      (fun acc ii => addAt acc 0 ((win.drop (ii * step)).take step))
      (List.replicate step 0)).length = step := by
    have := length_foldl_addAt (List.range (L / step)) (fun _ => 0)
      (fun ii => (win.drop (ii * step)).take step) (List.replicate step 0)
    simpa using this
  by_cases hmod : L % step ≠ 0
  · rw [if_pos hmod, length_addAt, hb]
  · rw [if_neg hmod]; exact hb

theorem getD_binsums (win : List ℚ) {L step : ℕ} (hstep : 0 < step) (hL : step ≤ L)
    (hwin : win.length = L) {j : ℕ} (hj : j < step) :
    (binsums win L step).getD j 0 = combAt win step j := by
  have hdm : L / step * step + L % step = L := Nat.div_add_mod' L step
  have hmodlt : L % step < step := Nat.mod_lt _ hstep
  -- the elementwise block sum
  have hblock : ((List.range (L / step)).foldl
      (fun acc ii => addAt acc 0 ((win.drop (ii * step)).take step))
      (List.replicate step 0)).getD j 0
      = ∑ m in Finset.range (L / step), win.getD (j + m * step) 0 := by
    have hfold := getD_foldl_addAt (List.range (L / step)) (fun _ => 0)
      (fun ii => (win.drop (ii * step)).take step) (List.replicate step 0)
      (j := j) (by simpa using hj)
    simp only at hfold
    rw [hfold, getD_replicate _ _ hj]
    have hrw : ((List.range (L / step)).map fun ii =>
        if 0 ≤ j ∧ j - 0 < ((win.drop (ii * step)).take step).length
        then ((win.drop (ii * step)).take step).getD (j - 0) 0 else 0).sum
        = ∑ m in Finset.range (L / step),
          (if 0 ≤ j ∧ j - 0 < ((win.drop (m * step)).take step).length
           then ((win.drop (m * step)).take step).getD (j - 0) 0 else 0) := rfl
    rw [hrw, zero_add]
    refine Finset.sum_congr rfl fun m hm => ?_
    have hm2 : m < L / step := Finset.mem_range.1 hm
    have hms : (m + 1) * step ≤ L := by
      calc (m + 1) * step ≤ L / step * step := Nat.mul_le_mul_right _ (by omega)
        _ ≤ L := Nat.div_mul_le_self _ _
    have hslicelen : ((win.drop (m * step)).take step).length = step := by
      rw [List.length_take, List.length_drop, hwin]
      have : (m + 1) * step = m * step + step := by ring
      omega
    rw [if_pos (by constructor <;> omega)]
    have : j - 0 = j := by omega
    rw [this, getD_take _ _ hj, getD_drop, Nat.add_comm (m * step) j]
  unfold binsums combAt
  rw [hwin]
  -- extend the comb sum to a range long enough to split off the tail term
  have hcomb : (∑ m in Finset.range L,
      if j + m * step < L then win.getD (j + m * step) 0 else 0)
      = ∑ m in Finset.range (L / step + 1),
        if j + m * step < L then win.getD (j + m * step) 0 else 0 := by
    have hzero : ∀ m, (L / step + 1) ≤ m →
        (if j + m * step < L then win.getD (j + m * step) 0 else 0) = 0 := by
      intro m hm
      have h1 : (L / step + 1) * step ≤ m * step := Nat.mul_le_mul_right _ hm
      have h2 : (L / step + 1) * step = L / step * step + step := by ring
      rw [if_neg (by omega)]
    have hzero2 : ∀ m, L ≤ m →
        (if j + m * step < L then win.getD (j + m * step) 0 else 0) = 0 := by
      intro m hm
      have : m ≤ m * step := Nat.le_mul_of_pos_right _ hstep
      rw [if_neg (by omega)]
    rcases Nat.le_total L (L / step + 1) with hc | hc
    · rw [sum_range_ext _ hc hzero2]
    · rw [sum_range_ext _ hc hzero]
  rw [hcomb, Finset.sum_range_succ]
  have hmain : ∀ m ∈ Finset.range (L / step),
      (if j + m * step < L then win.getD (j + m * step) 0 else 0)
      = win.getD (j + m * step) 0 := by
    intro m hm
    have hm2 : m < L / step := Finset.mem_range.1 hm
    have hms : (m + 1) * step ≤ L := by
      calc (m + 1) * step ≤ L / step * step := Nat.mul_le_mul_right _ (by omega)
        _ ≤ L := Nat.div_mul_le_self _ _
    have : (m + 1) * step = m * step + step := by ring
    rw [if_pos (by omega)]
  rw [Finset.sum_congr rfl hmain]
  have hblen : ((List.range (L / step)).foldl
      (fun acc ii => addAt acc 0 ((win.drop (ii * step)).take step))
      (List.replicate step 0)).length = step := by
    have := length_foldl_addAt (List.range (L / step)) (fun _ => 0)
      (fun ii => (win.drop (ii * step)).take step) (List.replicate step 0)
    simpa using this
  have hqs : L / step * step + L % step = L := hdm
  by_cases hmod : L % step = 0
  · rw [if_neg (by omega), hblock, if_neg (by omega), add_zero]
  · rw [if_pos hmod, getD_addAt _ _ _ (by rw [hblen]; omega), hblock]
    have hdl : (win.drop (L - L % step)).length = L % step := by
      rw [List.length_drop, hwin]; omega
    rw [hdl]
    have harg : L - L % step + j = j + L / step * step := by
      generalize L / step * step = A at hqs ⊢
      omega
    by_cases hjm : j < L % step
    · rw [if_pos (by omega), if_pos (by generalize hA : L / step * step = A at hqs ⊢; omega),
        getD_drop, Nat.sub_zero, harg]
    · rw [if_neg (by omega), if_neg (by generalize hA : L / step * step = A at hqs ⊢; omega)]

theorem sorted_replicate (n : ℕ) (c : ℚ) : List.Sorted (· ≤ ·) (List.replicate n c) := by
  induction n with
  | zero => simp
  | succ n ih =>
    rw [List.replicate_succ, List.sorted_cons]
    exact ⟨fun b hb => le_of_eq (List.eq_of_mem_replicate hb).symm, ih⟩

theorem median_replicate {n : ℕ} (hn : 0 < n) (c : ℚ) : median (List.replicate n c) = c := by
  unfold median
  rw [List.Sorted.insertionSort_eq (sorted_replicate n c), List.length_replicate]
  by_cases hodd : n % 2 = 1
  · rw [if_pos hodd, getD_replicate _ _ (by omega)]
  · rw [if_neg hodd, getD_replicate _ _ (by omega), getD_replicate _ _ (by omega)]
    ring

theorem foldr_max_replicate_zero (n : ℕ) :
    (List.replicate n (0 : ℚ)).foldr max 0 = 0 := by
  induction n with
  | zero => rfl
  | succ n ih => rw [List.replicate_succ, List.foldr_cons, ih]; simp

theorem checkCola_of_const_binsums {win : List ℚ} {L step : ℕ} {c tol : ℚ}
    (hstep : 0 < step) (hb : binsums win L step = List.replicate step c)
    (htol : 0 ≤ tol) : checkCola win L step tol = .ok c := by
  unfold checkCola
  dsimp only
  rw [hb, median_replicate hstep c, List.map_replicate]
  have hz : |c - c| = 0 := by simp
  rw [hz, foldr_max_replicate_zero, if_neg (by linarith)]

/-- C5: `_check_cola` sums the window over `floor(window_length/hop)`
consecutive hop-sized blocks elementwise and folds the remaining tail into
the start of the sum when `hop` does not divide `window_length` — so each
per-sample sum is the hop-shifted comb sum `combAt` of the window; it
raises exactly when the maximum deviation of these sums from their median
exceeds the tolerance, and otherwise returns the median of the sums as the
normalization constant. -/
theorem checkCola_spec (win : List ℚ) (L step : ℕ) (tol : ℚ)
    (hstep : 0 < step) (hL : step ≤ L) (hwin : win.length = L) :
    (binsums win L step).length = step ∧
    (∀ j < step, (binsums win L step).getD j 0 = combAt win step j) ∧
    (isErr (checkCola win L step tol) = true ↔
      tol < ((binsums win L step).map fun x =>
        |x - median (binsums win L step)|).foldr max 0) ∧
    ∀ c, checkCola win L step tol = .ok c → c = median (binsums win L step) := by
  refine ⟨length_binsums win L step, fun j hj => getD_binsums win hstep hL hwin hj, ?_, ?_⟩
  · simp only [checkCola]
    by_cases h : tol < ((binsums win L step).map fun x =>
        |x - median (binsums win L step)|).foldr max 0
    · rw [if_pos h]
      simpa [isErr] using h
    · rw [if_neg h]
      simpa [isErr] using h
  · intro c hc
    simp only [checkCola] at hc
    by_cases h : tol < ((binsums win L step).map fun x =>
        |x - median (binsums win L step)|).foldr max 0
    · rw [if_pos h] at hc
      exact absurd hc (by simp)
    · rw [if_neg h] at hc
      injection hc with h2
      exact h2.symm

/-- Witness for C5 at a concrete constant-overlap window: length 4,
hop 2, boxcar window of height 1/2. -/
theorem checkCola_spec_witness :
    (0 : ℕ) < 2 ∧ (binsums [1/2, 1/2, 1/2, 1/2] 4 2).length = 2 :=
  ⟨by decide,
   (checkCola_spec [1/2, 1/2, 1/2, 1/2] 4 2 0 (by decide) (by decide) (by decide)).1⟩

/-! Closed forms for the edge-corrected synthesis windows of `_COLA.feed`. -/

theorem combAt_decomp (w : List ℚ) (step : ℕ) (hstep : 0 < step) (hw : 0 < w.length)
    (j : ℕ) : combAt w step j = w.getD j 0 + upTail w step j := by
  obtain ⟨n, hn⟩ : ∃ n, w.length = n + 1 := ⟨w.length - 1, by omega⟩
  unfold combAt upTail
  rw [hn, Finset.sum_range_succ'
      (fun m => if j + m * step < n + 1 then w.getD (j + m * step) 0 else 0) n,
    Finset.sum_range_succ
      (fun m => if j + (m + 1) * step < n + 1 then w.getD (j + (m + 1) * step) 0 else 0) n]
  have hlast : (if j + (n + 1) * step < n + 1 then w.getD (j + (n + 1) * step) 0 else 0)
      = 0 := by
    have : n + 1 ≤ (n + 1) * step := Nat.le_mul_of_pos_right _ hstep
    rw [if_neg (by omega)]
  have hg0 : (if j + 0 * step < n + 1 then w.getD (j + 0 * step) 0 else 0)
      = w.getD j 0 := by
    rw [Nat.zero_mul, Nat.add_zero]
    by_cases hj : j < n + 1
    · rw [if_pos hj]
    · rw [if_neg hj, getD_of_len_le 0 (by omega)]
  rw [hlast, hg0]
  ring

theorem lt_div_succ_mul (a b : ℕ) (hb : 0 < b) : a < (a / b + 1) * b := by
  have hm : a / b * b + a % b = a := Nat.div_add_mod' a b
  have hmo : a % b < b := Nat.mod_lt _ hb
  have hexp : (a / b + 1) * b = a / b * b + b := by ring
  omega

theorem foldFirst_getD (w : List ℚ) (step : ℕ) (hstep : 0 < step) (hsL : step ≤ w.length)
    (base : List ℚ) {j : ℕ} (hj : j < base.length) :
    ((rangeDown (w.length - step) step).foldl
      (fun acc off => addAt acc 0 (w.drop (w.length - off))) base).getD j 0
    = base.getD j 0 + upTail w step j := by
  have hfold := getD_foldl_addAt (rangeDown (w.length - step) step) (fun _ => 0)
    (fun off => w.drop (w.length - off)) base hj
  dsimp only at hfold
  rw [hfold, sum_map_rangeDown]
  congr 1
  set L := w.length with hLdef
  have hcnt : (L - step + step - 1) / step = (L - 1) / step := by
    have : L - step + step - 1 = L - 1 := by omega
    rw [this]
  rw [hcnt]
  have hterm : ∀ m : ℕ,
      (if 0 ≤ j ∧ j - 0 < (w.drop (L - (L - step - m * step))).length
       then (w.drop (L - (L - step - m * step))).getD (j - 0) 0 else 0)
      = (if j + (m + 1) * step < L then w.getD (j + (m + 1) * step) 0 else 0) := by
    intro m
    have hdl : (w.drop (L - (L - step - m * step))).length = L - step - m * step := by
      rw [List.length_drop, ← hLdef]; omega
    have hsum : (m + 1) * step = m * step + step := by ring
    rcases Nat.lt_or_ge (m * step + step) L with hc | hc
    · -- the fold offset is positive: L - step - m*step = L - (m+1)*step
      by_cases hjin : j < L - step - m * step
      · rw [if_pos (by rw [hdl]; omega), getD_drop, Nat.sub_zero]
        rw [if_pos (by omega)]
        congr 1
        omega
      · rw [if_neg (by rw [hdl]; omega), if_neg (by omega)]
    · -- the offset underflows to 0 in ℕ; both sides vanish
      have hz : L - step - m * step = 0 := by omega
      rw [if_neg (by rw [hdl, hz]; omega), if_neg (by omega)]
  rw [Finset.sum_congr rfl fun m _ => hterm m]
  unfold upTail
  rw [← hLdef]
  have hvanish : ∀ m, (L - 1) / step ≤ m →
      (if j + (m + 1) * step < L then w.getD (j + (m + 1) * step) 0 else 0) = 0 := by
    intro m hm
    have h1 : ((L - 1) / step + 1) * step ≤ (m + 1) * step := Nat.mul_le_mul_right _ (by omega)
    have h2 : L - 1 < ((L - 1) / step + 1) * step := lt_div_succ_mul _ _ hstep
    rw [if_neg (by omega)]
  have hvanish2 : ∀ m, L ≤ m →
      (if j + (m + 1) * step < L then w.getD (j + (m + 1) * step) 0 else 0) = 0 := by
    intro m hm
    have : m + 1 ≤ (m + 1) * step := Nat.le_mul_of_pos_right _ hstep
    rw [if_neg (by omega)]
  rcases Nat.le_total ((L - 1) / step) L with hc | hc
  · rw [sum_range_ext _ hc hvanish]
  · rw [← sum_range_ext _ hc hvanish2]

theorem foldLast_getD (w : List ℚ) (step thisLen : ℕ) (hstep : 0 < step)
    (hLlen : w.length ≤ thisLen) {j : ℕ} (hj : j < thisLen) :
    ((rangeUp step thisLen step).foldl
      (fun acc off => addAt acc off (w.take (thisLen - off)))
      (w ++ List.replicate (thisLen - w.length) 0)).getD j 0
    = downAll w step j := by
  have hbaselen : (w ++ List.replicate (thisLen - w.length) 0).length = thisLen := by
    rw [List.length_append, List.length_replicate]; omega
  have hfold := getD_foldl_addAt (rangeUp step thisLen step) (fun off => off)
    (fun off => w.take (thisLen - off)) (w ++ List.replicate (thisLen - w.length) 0)
    (j := j) (by omega)
  dsimp only at hfold
  rw [hfold, sum_map_rangeUp]
  set L := w.length with hLdef
  have hbase : (w ++ List.replicate (thisLen - L) 0).getD j 0
      = if 0 * step ≤ j ∧ j - 0 * step < L then w.getD (j - 0 * step) 0 else 0 := by
    rcases Nat.lt_or_ge j L with hc | hc
    · rw [getD_append_left _ hc, if_pos (by omega), Nat.zero_mul, Nat.sub_zero]
    · rw [getD_append_right _ (by omega), if_neg (by omega)]
      rcases Nat.lt_or_ge (j - w.length) (thisLen - L) with hin | hout
      · exact getD_replicate 0 0 hin
      · exact getD_of_len_le 0 (by rw [List.length_replicate]; omega)
  have hterm : ∀ m : ℕ,
      (if step + m * step ≤ j ∧ j - (step + m * step) < (w.take (thisLen - (step + m * step))).length
       then (w.take (thisLen - (step + m * step))).getD (j - (step + m * step)) 0 else 0)
      = (if (m + 1) * step ≤ j ∧ j - (m + 1) * step < L
         then w.getD (j - (m + 1) * step) 0 else 0) := by
    intro m
    have hsum : (m + 1) * step = step + m * step := by ring
    have htl : (w.take (thisLen - (step + m * step))).length
        = min (thisLen - (step + m * step)) L := by
      rw [List.length_take, ← hLdef]
    by_cases hg : step + m * step ≤ j ∧ j - (step + m * step) < L
    · rw [if_pos (by rw [htl]; omega), if_pos (by omega), getD_take, hsum]
      omega
    · rw [if_neg (by rw [htl]; omega), if_neg (by omega)]
  rw [Finset.sum_congr rfl fun m _ => hterm m, hbase]
  unfold downAll
  rw [← hLdef, Finset.sum_range_succ'
    (fun k => if k * step ≤ j ∧ j - k * step < L then w.getD (j - k * step) 0 else 0) j]
  have hvan1 : ∀ m, (thisLen - 1) / step ≤ m →
      (if (m + 1) * step ≤ j ∧ j - (m + 1) * step < L
       then w.getD (j - (m + 1) * step) 0 else 0) = 0 := by
    intro m hm
    have h1 : ((thisLen - 1) / step + 1) * step ≤ (m + 1) * step :=
      Nat.mul_le_mul_right _ (by omega)
    have h2 : thisLen - 1 < ((thisLen - 1) / step + 1) * step :=
      lt_div_succ_mul _ _ hstep
    rw [if_neg (by omega)]
  have hvan2 : ∀ m, j ≤ m →
      (if (m + 1) * step ≤ j ∧ j - (m + 1) * step < L
       then w.getD (j - (m + 1) * step) 0 else 0) = 0 := by
    intro m hm
    have : m + 1 ≤ (m + 1) * step := Nat.le_mul_of_pos_right _ hstep
    rw [if_neg (by omega)]
  have hcnt : (thisLen - step + step - 1) / step = (thisLen - 1) / step := by
    have h0 : 0 < thisLen := by omega
    rcases Nat.le_total step thisLen with hc | hc
    · have : thisLen - step + step - 1 = thisLen - 1 := by omega
      rw [this]
    · have h1 : thisLen - step = 0 := by omega
      rw [h1]
      have h2 : (step - 1) / step = 0 := Nat.div_eq_of_lt (by omega)
      rw [Nat.zero_add, h2]
      exact (Nat.div_eq_of_lt (by omega)).symm
  have hS : (∑ m in Finset.range ((thisLen - step + step - 1) / step),
      if (m + 1) * step ≤ j ∧ j - (m + 1) * step < L
      then w.getD (j - (m + 1) * step) 0 else 0)
      = ∑ m in Finset.range j,
        if (m + 1) * step ≤ j ∧ j - (m + 1) * step < L
        then w.getD (j - (m + 1) * step) 0 else 0 := by
    rw [hcnt]
    rcases Nat.le_total ((thisLen - 1) / step) j with hc | hc
    · rw [sum_range_ext _ hc hvan1]
    · rw [← sum_range_ext _ hc hvan2]
  rw [hS]
  ring

theorem step_pos {P : COLAParams} (h1 : P.nOverlap < P.nSamples) : 0 < P.step := by
  unfold COLAParams.step; omega

theorem step_le {P : COLAParams} : P.step ≤ P.nSamples := by
  unfold COLAParams.step; omega

theorem thisWindowAt_mid (P : COLAParams) (w : List ℚ) {i : ℕ} (h0 : i ≠ 0)
    (hlast : i ≠ P.nWins - 1) : thisWindowAt P w i = w := by
  simp only [thisWindowAt]
  rw [if_neg hlast, if_neg h0]

theorem thisWindowAt_first (P : COLAParams) (w : List ℚ) (hNW2 : 2 ≤ P.nWins) :
    thisWindowAt P w 0 = (rangeDown (w.length - P.step) P.step).foldl
      (fun acc off => addAt acc 0 (w.drop (w.length - off))) w := by
  simp only [thisWindowAt, if_true]
  rw [if_neg (show ¬(0 = P.nWins - 1) by omega)]

theorem thisWindowAt_lastdef (P : COLAParams) (w : List ℚ) (hNW2 : 2 ≤ P.nWins) :
    thisWindowAt P w (P.nWins - 1)
      = (rangeUp P.step (P.stopAt (P.nWins - 1) - P.startAt (P.nWins - 1)) P.step).foldl
          (fun acc off => addAt acc off
            (w.take (P.stopAt (P.nWins - 1) - P.startAt (P.nWins - 1) - off)))
          (w ++ List.replicate
            (P.stopAt (P.nWins - 1) - P.startAt (P.nWins - 1) - w.length) 0) := by
  simp only [thisWindowAt, if_true]
  rw [if_neg (show ¬(P.nWins - 1 = 0) by omega)]

theorem thisWindowAt_single (P : COLAParams) (w : List ℚ) (hNW1 : P.nWins = 1) :
    thisWindowAt P w 0
      = (rangeDown (w.length - P.step) P.step).foldl
          (fun acc off => addAt acc 0 (w.drop (w.length - off)))
          ((rangeUp P.step (P.stopAt 0 - P.startAt 0) P.step).foldl
            (fun acc off => addAt acc off (w.take (P.stopAt 0 - P.startAt 0 - off)))
            (w ++ List.replicate (P.stopAt 0 - P.startAt 0 - w.length) 0)) := by
  simp only [thisWindowAt, if_true]
  rw [if_pos (show 0 = P.nWins - 1 by omega)]

theorem length_thisWindowAt {P : COLAParams} {w : List ℚ} (h1 : P.nOverlap < P.nSamples)
    (h2 : P.nSamples ≤ P.nTotal) (hw : w.length = P.nSamples) {i : ℕ} (hi : i < P.nWins) :
    (thisWindowAt P w i).length = P.stopAt i - P.startAt i := by
  have hlastlen : w.length ≤ P.stopAt (P.nWins - 1) - P.startAt (P.nWins - 1) := by
    rw [hw]; exact nSamples_le_thisLen_last P h1 h2
  by_cases hlast : i = P.nWins - 1
  · subst hlast
    by_cases hNW1 : P.nWins = 1
    · have h0 : P.nWins - 1 = 0 := by omega
      rw [h0] at hlastlen ⊢
      rw [thisWindowAt_single P w hNW1, length_foldl_addAt, length_foldl_addAt,
        List.length_append, List.length_replicate]
      omega
    · have hNW2 : 2 ≤ P.nWins := by have := nWins_pos P h1; omega
      rw [thisWindowAt_lastdef P w hNW2, length_foldl_addAt, List.length_append,
        List.length_replicate]
      omega
  · have hii : i < P.nWins - 1 := by omega
    rw [thisLen_interior P h1 hii]
    by_cases h0 : i = 0
    · subst h0
      have hNW2 : 2 ≤ P.nWins := by omega
      rw [thisWindowAt_first P w hNW2, length_foldl_addAt, hw]
    · rw [thisWindowAt_mid P w h0 hlast, hw]

theorem getD_thisWindowAt_first {P : COLAParams} {w : List ℚ}
    (h1 : P.nOverlap < P.nSamples) (hw : w.length = P.nSamples) (hNW2 : 2 ≤ P.nWins)
    (j : ℕ) : (thisWindowAt P w 0).getD j 0 = combAt w P.step j := by
  have hstep : 0 < P.step := step_pos h1
  have hsL : P.step ≤ w.length := by rw [hw]; exact step_le
  rw [thisWindowAt_first P w hNW2]
  rcases Nat.lt_or_ge j w.length with hj | hj
  · rw [foldFirst_getD w P.step hstep hsL w hj,
      combAt_decomp w P.step hstep (by omega) j]
  · have hlen : ((rangeDown (w.length - P.step) P.step).foldl
        (fun acc off => addAt acc 0 (w.drop (w.length - off))) w).length = w.length :=
      length_foldl_addAt _ _ _ _
    rw [getD_of_len_le 0 (by omega)]
    symm
    unfold combAt
    refine Finset.sum_eq_zero fun m _ => ?_
    rw [if_neg (by omega)]

theorem getD_thisWindowAt_last {P : COLAParams} {w : List ℚ}
    (h1 : P.nOverlap < P.nSamples) (h2 : P.nSamples ≤ P.nTotal)
    (hw : w.length = P.nSamples) (hNW2 : 2 ≤ P.nWins) {j : ℕ}
    (hj : j < P.stopAt (P.nWins - 1) - P.startAt (P.nWins - 1)) :
    (thisWindowAt P w (P.nWins - 1)).getD j 0 = downAll w P.step j := by
  have hstep : 0 < P.step := step_pos h1
  have hlastlen : w.length ≤ P.stopAt (P.nWins - 1) - P.startAt (P.nWins - 1) := by
    rw [hw]; exact nSamples_le_thisLen_last P h1 h2
  rw [thisWindowAt_lastdef P w hNW2]
  exact foldLast_getD w P.step _ hstep hlastlen hj

theorem getD_thisWindowAt_single {P : COLAParams} {w : List ℚ}
    (h1 : P.nOverlap < P.nSamples) (h2 : P.nSamples ≤ P.nTotal)
    (hw : w.length = P.nSamples) (hNW1 : P.nWins = 1) {j : ℕ}
    (hj : j < P.stopAt 0 - P.startAt 0) :
    (thisWindowAt P w 0).getD j 0 = downAll w P.step j + upTail w P.step j := by
  have hstep : 0 < P.step := step_pos h1
  have hsL : P.step ≤ w.length := by rw [hw]; exact step_le
  have hlastlen : w.length ≤ P.stopAt 0 - P.startAt 0 := by
    have := nSamples_le_thisLen_last P h1 h2
    rw [hw]
    have h0 : P.nWins - 1 = 0 := by omega
    rw [h0] at this
    exact this
  rw [thisWindowAt_single P w hNW1]
  have hbaselen : ((rangeUp P.step (P.stopAt 0 - P.startAt 0) P.step).foldl
      (fun acc off => addAt acc off (w.take (P.stopAt 0 - P.startAt 0 - off)))
      (w ++ List.replicate (P.stopAt 0 - P.startAt 0 - w.length) 0)).length
      = P.stopAt 0 - P.startAt 0 := by
    rw [length_foldl_addAt, List.length_append, List.length_replicate]
    omega
  rw [foldFirst_getD w P.step hstep hsL _ (by omega),
    foldLast_getD w P.step _ hstep hlastlen hj]

/-! The comb-sum decompositions of the edge-corrected windows, and the unit
total gain. -/

theorem combAt_eq_sum_combTermAt (w : List ℚ) (step r : ℕ) :
    combAt w step r = ∑ i in Finset.range w.length, combTermAt w step r i := rfl

theorem combTermAt_eq_zero {w : List ℚ} {step : ℕ} (hstep : 0 < step) (r : ℕ) {i : ℕ}
    (hi : w.length ≤ i) : combTermAt w step r i = 0 := by
  unfold combTermAt
  have : i ≤ i * step := Nat.le_mul_of_pos_right _ hstep
  rw [if_neg (by omega)]

theorem combAt_eq_sum_big (w : List ℚ) {step : ℕ} (hstep : 0 < step) (r : ℕ) {N : ℕ}
    (hN : w.length ≤ N) :
    combAt w step r = ∑ i in Finset.range N, combTermAt w step r i := by
  rw [combAt_eq_sum_combTermAt,
    sum_range_ext _ hN fun m hm => combTermAt_eq_zero hstep r hm]

theorem downAll_eq_sum (w : List ℚ) {step : ℕ} (hstep : 0 < step) (j : ℕ) :
    downAll w step j
      = ∑ i in Finset.range (j / step + 1), combTermAt w step (j % step) i := by
  have hdm : j / step * step + j % step = j := Nat.div_add_mod' j step
  have hr : j % step < step := Nat.mod_lt _ hstep
  have hq : j / step ≤ j := Nat.div_le_self _ _
  unfold downAll
  have htrunc : (∑ k in Finset.range (j + 1),
      if k * step ≤ j ∧ j - k * step < w.length then w.getD (j - k * step) 0 else 0)
      = ∑ k in Finset.range (j / step + 1),
        if k * step ≤ j ∧ j - k * step < w.length then w.getD (j - k * step) 0 else 0 := by
    apply sum_range_ext _ (by omega)
    intro k hk
    have h1 : (j / step + 1) * step ≤ k * step := Nat.mul_le_mul_right _ (by omega)
    have h2 : (j / step + 1) * step = j / step * step + step := by ring
    rw [if_neg (by omega)]
  rw [htrunc, ← Finset.sum_range_reflect]
  refine Finset.sum_congr rfl fun i hi => ?_
  have hi2 : i < j / step + 1 := Finset.mem_range.1 hi
  have hidx : j / step + 1 - 1 - i = j / step - i := by omega
  rw [hidx]
  have hmul : (j / step - i) * step + i * step = j / step * step := by
    have h3 : j / step - i + i = j / step := by omega
    calc (j / step - i) * step + i * step = (j / step - i + i) * step := by ring
      _ = j / step * step := by rw [h3]
  have hle : (j / step - i) * step ≤ j := by omega
  have hsub : j - (j / step - i) * step = j % step + i * step := by omega
  rw [hsub]
  unfold combTermAt
  simp only [hle, true_and]

theorem upTail_eq_sum (w : List ℚ) {step : ℕ} (hstep : 0 < step) (j : ℕ) :
    upTail w step j
      = ∑ m in Finset.range w.length, combTermAt w step (j % step) (j / step + 1 + m) := by
  have hdm : j / step * step + j % step = j := Nat.div_add_mod' j step
  unfold upTail
  refine Finset.sum_congr rfl fun m _ => ?_
  unfold combTermAt
  have hmul : (j / step + 1 + m) * step = j / step * step + step + m * step := by ring
  have hmul2 : (m + 1) * step = m * step + step := by ring
  have hidx : j + (m + 1) * step = j % step + (j / step + 1 + m) * step := by omega
  rw [hidx]

theorem gainAt_eq_one {P : COLAParams} {w : List ℚ} (h1 : P.nOverlap < P.nSamples)
    (h2 : P.nSamples ≤ P.nTotal) (hw : w.length = P.nSamples)
    (hcomb : ∀ j < P.step, combAt w P.step j = 1) {t : ℕ} (ht : t < P.nTotal) :
    gainAt P w t = 1 := by
  have hstep : 0 < P.step := step_pos h1
  have hn := nWins_pos P h1
  have hdm : t / P.step * P.step + t % P.step = t := Nat.div_add_mod' t P.step
  have hr : t % P.step < P.step := Nat.mod_lt _ hstep
  have hbig : ∀ N, w.length ≤ N →
      (∑ i in Finset.range N, combTermAt w P.step (t % P.step) i) = 1 := fun N hN => by
    rw [← combAt_eq_sum_big w hstep _ hN]; exact hcomb _ hr
  have hq1 : t < (t / P.step + 1) * P.step := by
    have : (t / P.step + 1) * P.step = t / P.step * P.step + P.step := by ring
    omega
  have hLpos : 0 < w.length := by rw [hw]; have := step_le (P := P); omega
  by_cases hNW1 : P.nWins = 1
  · -- a single planned window carries both edge folds
    unfold gainAt
    rw [hNW1, Finset.sum_range_one]
    have hs0 : P.startAt 0 = 0 := by rw [startAt_eq P h1 (by omega)]; ring
    have hstop0 : P.stopAt 0 = P.nTotal := by
      have hx := stopAt_last P h1
      rw [hNW1] at hx
      exact hx
    have hjlt1 : t < P.stopAt 0 - P.startAt 0 := by rw [hs0, hstop0]; omega
    rw [hs0, hstop0, if_pos (by omega), Nat.sub_zero,
      getD_thisWindowAt_single h1 h2 hw hNW1 hjlt1,
      downAll_eq_sum w hstep t, upTail_eq_sum w hstep t, ← Finset.sum_range_add]
    exact hbig (t / P.step + 1 + w.length) (Nat.le_add_left _ _)
  · -- at least two windows: first, interior and last contributions
    obtain ⟨I, hI⟩ : ∃ I, P.nWins = I + 1 := ⟨P.nWins - 1, by omega⟩
    obtain ⟨Im, hIm⟩ : ∃ Im, I = Im + 1 := ⟨I - 1, by omega⟩
    have hNW2 : 2 ≤ P.nWins := by omega
    have hlastI : P.nWins - 1 = I := by omega
    unfold gainAt
    rw [hI, Finset.sum_range_succ, hIm, Finset.sum_range_succ']
    -- the first window: all comb shifts at or above the quotient of t
    have hs0 : P.startAt 0 = 0 := by rw [startAt_eq P h1 (by omega)]; ring
    have hstop0 : P.stopAt 0 = P.nSamples := by
      rw [stopAt_eq_of_lt_last P h1 (by omega)]; ring
    have hfirstv := getD_thisWindowAt_first h1 hw hNW2
    have hcombshift : combAt w P.step t
        = ∑ m in Finset.range w.length, combTermAt w P.step (t % P.step) (t / P.step + m) := by
      rw [combAt_eq_sum_combTermAt]
      refine Finset.sum_congr rfl fun m _ => ?_
      unfold combTermAt
      have e1 : (t / P.step + m) * P.step = t / P.step * P.step + m * P.step := by ring
      have e2 : t + m * P.step = t % P.step + (t / P.step + m) * P.step := by omega
      rw [e2]
    have hfirst : (if P.startAt 0 ≤ t ∧ t < P.stopAt 0
        then (thisWindowAt P w 0).getD (t - P.startAt 0) 0 else 0)
        = ∑ m in Finset.range w.length, combTermAt w P.step (t % P.step) (t / P.step + m) := by
      rw [hs0, hstop0, Nat.sub_zero]
      by_cases htL : t < P.nSamples
      · rw [if_pos (by omega), hfirstv t, hcombshift]
      · rw [if_neg (by omega)]
        symm
        refine Finset.sum_eq_zero fun m _ => ?_
        unfold combTermAt
        have e1 : (t / P.step + m) * P.step = t / P.step * P.step + m * P.step := by ring
        rw [if_neg (by omega)]
    -- the last window: all comb shifts strictly below the quotient threshold
    have hlast : (if P.startAt I ≤ t ∧ t < P.stopAt I
        then (thisWindowAt P w I).getD (t - P.startAt I) 0 else 0)
        = ∑ i in Finset.range (t / P.step + 1 - I), combTermAt w P.step (t % P.step) i := by
      have hsI : P.startAt I = I * P.step := startAt_eq P h1 (by omega)
      have hstopI : P.stopAt I = P.nTotal := by rw [← hlastI, stopAt_last P h1]
      rcases Nat.lt_or_ge (t / P.step) I with hIq2 | hIq
      · have hIt : t < I * P.step := by
          have := Nat.mul_le_mul_right P.step (show t / P.step + 1 ≤ I by omega)
          omega
        rw [if_neg (by rw [hsI]; omega)]
        have : t / P.step + 1 - I = 0 := by omega
        rw [this]
        rfl
      · have hIt : I * P.step ≤ t := by
          have := Nat.mul_le_mul_right P.step hIq
          omega
        have hcond : P.startAt I ≤ t ∧ t < P.stopAt I := by rw [hsI, hstopI]; omega
        rw [if_pos hcond, hsI]
        have hjlt : t - I * P.step < P.stopAt (P.nWins - 1) - P.startAt (P.nWins - 1) := by
          rw [hlastI, hsI, hstopI]
          omega
        rw [show (thisWindowAt P w I) = thisWindowAt P w (P.nWins - 1) by rw [hlastI]]
        rw [getD_thisWindowAt_last h1 h2 hw hNW2 hjlt]
        rw [downAll_eq_sum w hstep (t - I * P.step)]
        have hjd : t - I * P.step = t % P.step + (t / P.step - I) * P.step := by
          have e1 : (t / P.step - I) * P.step + I * P.step = t / P.step * P.step := by
            have e0 : t / P.step - I + I = t / P.step := by omega
            calc (t / P.step - I) * P.step + I * P.step
                = (t / P.step - I + I) * P.step := by ring
              _ = t / P.step * P.step := by rw [e0]
          omega
        have hdiv : (t - I * P.step) / P.step = t / P.step - I := by
          rw [hjd, Nat.add_mul_div_right _ _ hstep, Nat.div_eq_of_lt hr, Nat.zero_add]
        have hmod : (t - I * P.step) % P.step = t % P.step := by
          rw [hjd, Nat.add_mul_mod_self_right, Nat.mod_eq_of_lt hr]
        rw [hdiv, hmod]
        have : t / P.step - I + 1 = t / P.step + 1 - I := by omega
        rw [this]
    -- the interior windows: the comb shifts strictly between the two edges
    have hmid : ∀ m, m < Im →
        (if P.startAt (m + 1) ≤ t ∧ t < P.stopAt (m + 1)
         then (thisWindowAt P w (m + 1)).getD (t - P.startAt (m + 1)) 0 else 0)
        = (if m + 1 ≤ t / P.step
           then combTermAt w P.step (t % P.step) (t / P.step - (m + 1)) else 0) := by
      intro m hm
      have hii : m + 1 < P.nWins - 1 := by omega
      have hsi : P.startAt (m + 1) = (m + 1) * P.step := startAt_eq P h1 (by omega)
      have hstopi : P.stopAt (m + 1) = (m + 1) * P.step + P.nSamples :=
        stopAt_eq_of_lt_last P h1 hii
      rw [thisWindowAt_mid P w (by omega) (by omega), hsi, hstopi]
      rcases Nat.lt_or_ge (t / P.step) (m + 1) with hgt | hle
      · have hIt : t < (m + 1) * P.step := by
          have := Nat.mul_le_mul_right P.step (show t / P.step + 1 ≤ m + 1 by omega)
          omega
        rw [if_neg (by omega), if_neg (by omega)]
      · have hIt : (m + 1) * P.step ≤ t := by
          have := Nat.mul_le_mul_right P.step hle
          omega
        have hsplit : (t / P.step - (m + 1)) * P.step + (m + 1) * P.step
            = t / P.step * P.step := by
          have e0 : t / P.step - (m + 1) + (m + 1) = t / P.step := by omega
          calc (t / P.step - (m + 1)) * P.step + (m + 1) * P.step
              = (t / P.step - (m + 1) + (m + 1)) * P.step := by ring
            _ = t / P.step * P.step := by rw [e0]
        have hidx : t - (m + 1) * P.step
            = t % P.step + (t / P.step - (m + 1)) * P.step := by omega
        unfold combTermAt
        by_cases hg : t % P.step + (t / P.step - (m + 1)) * P.step < w.length
        · rw [if_pos ⟨hIt, by omega⟩, if_pos hle, if_pos hg, hidx]
        · rw [if_neg (by omega), if_pos hle, if_neg hg]
    -- reduce the interior group to a clean range of comb shifts
    have hmidsum : (∑ m in Finset.range Im,
        if m + 1 ≤ t / P.step
        then combTermAt w P.step (t % P.step) (t / P.step - (m + 1)) else 0)
        = ∑ m in Finset.range (min Im (t / P.step)),
            combTermAt w P.step (t % P.step)
              (t / P.step - min Im (t / P.step) + m) := by
      rcases Nat.le_total Im (t / P.step) with hc | hc
      · rw [Nat.min_eq_left hc]
        symm
        rw [← Finset.sum_range_reflect
          (fun m => combTermAt w P.step (t % P.step) (t / P.step - Im + m)) Im]
        refine Finset.sum_congr rfl fun m hm => ?_
        have hm2 : m < Im := Finset.mem_range.1 hm
        rw [if_pos (by omega)]
        congr 1
        omega
      · rw [Nat.min_eq_right hc,
          sum_range_ext _ hc (fun m hm => by rw [if_neg (by omega)])]
        symm
        rw [← Finset.sum_range_reflect
          (fun m => combTermAt w P.step (t % P.step)
            (t / P.step - t / P.step + m)) (t / P.step)]
        refine Finset.sum_congr rfl fun m hm => ?_
        have hm2 : m < t / P.step := Finset.mem_range.1 hm
        rw [if_pos (by omega)]
        congr 1
        omega
    -- assemble: the three groups partition all comb shifts
    rw [hIm] at hlast
    rw [hfirst, hlast, Finset.sum_congr rfl fun m hm => hmid m (Finset.mem_range.1 hm),
      hmidsum]
    have hidx2 : t / P.step - min Im (t / P.step)
        = t / P.step + 1 - (Im + 1) := by
      rcases Nat.le_total Im (t / P.step) with hc | hc
      · rw [Nat.min_eq_left hc]; omega
      · rw [Nat.min_eq_right hc]; omega
    have hidx3 : (t / P.step + 1 - (Im + 1)) + min Im (t / P.step) = t / P.step := by
      rcases Nat.le_total Im (t / P.step) with hc | hc
      · rw [Nat.min_eq_left hc]; omega
      · rw [Nat.min_eq_right hc]; omega
    rw [hidx2]
    have e1 : (∑ i in Finset.range (t / P.step + 1 - (Im + 1)),
          combTermAt w P.step (t % P.step) i)
        + (∑ m in Finset.range (min Im (t / P.step)),
            combTermAt w P.step (t % P.step) (t / P.step + 1 - (Im + 1) + m))
        = ∑ i in Finset.range (t / P.step), combTermAt w P.step (t % P.step) i := by
      rw [← Finset.sum_range_add, hidx3]
    have e2 : (∑ i in Finset.range (t / P.step), combTermAt w P.step (t % P.step) i)
        + (∑ m in Finset.range w.length,
            combTermAt w P.step (t % P.step) (t / P.step + m))
        = 1 := by
      rw [← Finset.sum_range_add]
      exact hbig (t / P.step + w.length) (Nat.le_add_left _ _)
    linarith [e1, e2]

/-! The processing loop of `_COLA.feed`: core invariant preservation. -/

theorem flushedLen_of_lt (P : COLAParams) {k : ℕ} (hk : k < P.nWins) :
    flushedLen P k = P.startAt k := if_pos hk

theorem flushedLen_zero (P : COLAParams) (h1 : P.nOverlap < P.nSamples) :
    flushedLen P 0 = 0 := by
  rw [flushedLen_of_lt P (nWins_pos P h1), startAt_eq P h1 (nWins_pos P h1)]
  ring

theorem flushedLen_nWins (P : COLAParams) : flushedLen P P.nWins = P.nTotal := by
  unfold flushedLen
  rw [if_neg (lt_irrefl _)]

theorem nextStart_eq (P : COLAParams) (h1 : P.nOverlap < P.nSamples) {k : ℕ}
    (hk : k < P.nWins) :
    (if k + 1 < P.nWins then P.startAt (k + 1) else P.stopAt (P.nWins - 1))
      = flushedLen P (k + 1) := by
  by_cases hk1 : k + 1 < P.nWins
  · rw [if_pos hk1, flushedLen, if_pos hk1]
  · rw [if_neg hk1, stopAt_last P h1, flushedLen, if_neg hk1]

theorem flushedLen_succ_lt (P : COLAParams) (h1 : P.nOverlap < P.nSamples)
    (h2 : P.nSamples ≤ P.nTotal) {k : ℕ} (hk : k < P.nWins) :
    flushedLen P k < flushedLen P (k + 1) := by
  rw [flushedLen_of_lt P hk]
  by_cases hk1 : k + 1 < P.nWins
  · rw [flushedLen, if_pos hk1, startAt_succ P h1 hk1]
    have := step_pos h1
    omega
  · rw [flushedLen, if_neg hk1]
    have hkl : k = P.nWins - 1 := by have := nWins_pos P h1; omega
    have hs := startLast_add_le P h1 h2
    rw [hkl, startAt_eq P h1 (by omega)]
    omega

theorem flushedLen_succ_le_stop (P : COLAParams) (h1 : P.nOverlap < P.nSamples)
    (h2 : P.nSamples ≤ P.nTotal) {k : ℕ} (hk : k < P.nWins) :
    flushedLen P (k + 1) ≤ P.stopAt k := by
  by_cases hk1 : k + 1 < P.nWins
  · rw [flushedLen, if_pos hk1, startAt_succ P h1 hk1,
      stopAt_eq_of_lt_last P h1 (by omega)]
    have hs : P.step ≤ P.nSamples := step_le
    rw [startAt_eq P h1 hk]
    omega
  · rw [flushedLen, if_neg hk1]
    have hkl : k = P.nWins - 1 := by have := nWins_pos P h1; omega
    rw [hkl, stopAt_last P h1]

theorem thisLen_le_maxLen (P : COLAParams) (h1 : P.nOverlap < P.nSamples)
    (h2 : P.nSamples ≤ P.nTotal) {k : ℕ} (hk : k < P.nWins) :
    P.stopAt k - P.startAt k ≤ P.maxLen := by
  rw [maxLen_eq P h1 h2]
  by_cases hkl : k = P.nWins - 1
  · rw [hkl]
  · have hk2 : k < P.nWins - 1 := by omega
    rw [thisLen_interior P h1 hk2]
    exact nSamples_le_thisLen_last P h1 h2

theorem delta_le_maxLen (P : COLAParams) (h1 : P.nOverlap < P.nSamples)
    (h2 : P.nSamples ≤ P.nTotal) {k : ℕ} (hk : k < P.nWins) :
    flushedLen P (k + 1) - flushedLen P k ≤ P.maxLen := by
  have hs := flushedLen_succ_le_stop P h1 h2 hk
  have hf := flushedLen_of_lt P hk
  have ht := thisLen_le_maxLen P h1 h2 hk
  omega

theorem inOffset_eq_of_core {P : COLAParams} {T : ℕ} {s : COLASt}
    (hInv : ColaInvCore P T s) (hk : s.idx < P.nWins) : inOffset P s = T := by
  unfold inOffset
  rw [hInv.hinlen, ← flushedLen_of_lt P hk]
  have := hInv.hflush
  omega

theorem Tiles_append {l : List (ℕ × ℕ)} {a b : ℕ} (h : Tiles l a b) {d : ℕ}
    (hd : 0 < d) : Tiles (l ++ [(b, d)]) a (b + d) := by
  induction l generalizing a with
  | nil =>
    have h2 : a = b := h
    exact ⟨h2.symm, hd, by rw [h2]; exact rfl⟩
  | cons x tl ih =>
    obtain ⟨off, len⟩ := x
    obtain ⟨hoff, hlen, htl⟩ := h
    exact ⟨hoff, hlen, ih htl⟩

theorem processOne_core {P : COLAParams} {T : ℕ} {s : COLASt}
    (h1 : P.nOverlap < P.nSamples) (h2 : P.nSamples ≤ P.nTotal)
    (proc : ℕ → ℕ → List ℚ → List ℚ) (w : List ℚ)
    (hInv : ColaInvCore P T s) (hk : s.idx < P.nWins) (hstop : P.stopAt s.idx ≤ T) :
    ColaInvCore P T (processOne P proc w s) ∧ (processOne P proc w s).idx = s.idx + 1 := by
  have hdeltaE : (if s.idx + 1 < P.nWins then P.startAt (s.idx + 1)
      else P.stopAt (P.nWins - 1)) - P.startAt s.idx
      = flushedLen P (s.idx + 1) - flushedLen P s.idx := by
    rw [nextStart_eq P h1 hk, flushedLen_of_lt P hk]
  have hmono := flushedLen_succ_lt P h1 h2 hk
  have hstopf := flushedLen_succ_le_stop P h1 h2 hk
  have hdle := delta_le_maxLen P h1 h2 hk
  have hfl := flushedLen_of_lt P hk
  have hflstop : flushedLen P s.idx ≤ P.stopAt s.idx := by
    have := thisLen_le_maxLen P h1 h2 hk
    have hss : P.startAt s.idx ≤ P.stopAt s.idx := by
      have hone := flushedLen_succ_lt P h1 h2 hk
      omega
    omega
  have hidxE : (processOne P proc w s).idx = s.idx + 1 := rfl
  refine ⟨⟨?_, ?_, hInv.hT, ?_, ?_, ?_, ?_, ?_⟩, hidxE⟩
  · rw [hidxE]; omega
  · rw [hidxE]
    intro i hi
    rcases Nat.lt_or_ge i s.idx with hlt | hge
    · exact hInv.hdone i hlt
    · have : i = s.idx := by omega
      rw [this]
      exact hstop
  · rw [hidxE]; omega
  · show (s.inBuf.drop _).length = T - flushedLen P (s.idx + 1)
    rw [List.length_drop, hInv.hinlen, hdeltaE]
    omega
  · show ((addAt s.outBuf 0 _).drop _ ++ List.replicate _ 0).length = P.maxLen
    rw [List.length_append, List.length_drop, List.length_replicate, length_addAt,
      hInv.houtlen, hdeltaE]
    omega
  · show s.storerIdx + ((addAt s.outBuf 0 _).take _).length = flushedLen P (s.idx + 1)
    rw [List.length_take, length_addAt, hInv.houtlen, hInv.hsidx, hdeltaE]
    omega
  · show Tiles ((s.writes ++ [(s.storerIdx, (addAt s.outBuf 0 _).take _)]).map
      fun pr => (pr.1, pr.2.length)) 0 (flushedLen P (s.idx + 1))
    rw [List.map_append, List.map_cons, List.map_nil]
    have hchunklen : ((addAt s.outBuf 0 (List.zipWith (· * ·)
        (proc s.storerIdx (s.storerIdx + (P.stopAt s.idx - P.startAt s.idx))
          (s.inBuf.take (P.stopAt s.idx - P.startAt s.idx))) (thisWindowAt P w s.idx))).take
        ((if s.idx + 1 < P.nWins then P.startAt (s.idx + 1)
          else P.stopAt (P.nWins - 1)) - P.startAt s.idx)).length
        = flushedLen P (s.idx + 1) - flushedLen P s.idx := by
      rw [List.length_take, length_addAt, hInv.houtlen, hdeltaE]
      omega
    rw [hchunklen, hInv.hsidx]
    have hdpos : 0 < flushedLen P (s.idx + 1) - flushedLen P s.idx := by omega
    have htarget := Tiles_append hInv.htiles hdpos
    have hsum : flushedLen P s.idx
        + (flushedLen P (s.idx + 1) - flushedLen P s.idx)
        = flushedLen P (s.idx + 1) := by omega
    rw [hsum] at htarget
    exact htarget

theorem stopAt_nWins (P : COLAParams) : P.stopAt P.nWins = 0 := by
  unfold COLAParams.stopAt
  exact getD_of_len_le 0 (by rw [length_stopsL])

theorem processLoop_succ (P : COLAParams) (proc : ℕ → ℕ → List ℚ → List ℚ) (w : List ℚ)
    (fuel : ℕ) (s : COLASt) :
    processLoop P proc w (fuel + 1) s
      = if s.idx < P.nWins ∧ P.stopAt s.idx ≤ inOffset P s
        then processLoop P proc w fuel (processOne P proc w s) else s := rfl

theorem processLoop_core {P : COLAParams} {T : ℕ}
    (h1 : P.nOverlap < P.nSamples) (h2 : P.nSamples ≤ P.nTotal)
    (proc : ℕ → ℕ → List ℚ → List ℚ) (w : List ℚ) :
    ∀ (fuel : ℕ) (s : COLASt), ColaInvCore P T s → P.nWins - s.idx ≤ fuel →
      ColaInvCore P T (processLoop P proc w fuel s)
        ∧ ColaPost P T (processLoop P proc w fuel s) := by
  intro fuel
  induction fuel with
  | zero =>
    intro s hInv hf
    have hidx : s.idx = P.nWins := by have := hInv.hidx; omega
    exact ⟨hInv, Or.inl hidx⟩
  | succ fuel ih =>
    intro s hInv hf
    rw [processLoop_succ]
    by_cases hcond : s.idx < P.nWins ∧ P.stopAt s.idx ≤ inOffset P s
    · rw [if_pos hcond]
      have hstop : P.stopAt s.idx ≤ T := by
        have hio := inOffset_eq_of_core hInv hcond.1
        have := hcond.2
        omega
      obtain ⟨hInv2, hidx2⟩ := processOne_core h1 h2 proc w hInv hcond.1 hstop
      exact ih _ hInv2 (by rw [hidx2]; omega)
    · rw [if_neg hcond]
      refine ⟨hInv, ?_⟩
      by_cases hidx : s.idx < P.nWins
      · right
        have hno : ¬ P.stopAt s.idx ≤ inOffset P s := fun h => hcond ⟨hidx, h⟩
        rw [inOffset_eq_of_core hInv hidx] at hno
        omega
      · left
        have := hInv.hidx
        omega

theorem feedC_core {P : COLAParams} {T : ℕ} {s : COLASt}
    (h1 : P.nOverlap < P.nSamples) (h2 : P.nSamples ≤ P.nTotal)
    (proc : ℕ → ℕ → List ℚ → List ℚ) (w : List ℚ)
    (hInv : ColaInvCore P T s) (hPost : ColaPost P T s)
    {d : List ℚ} (hd : d ≠ []) (hle : T + d.length ≤ P.nTotal) :
    feedC P proc w s d
        = .ok (processLoop P proc w P.nWins { s with inBuf := s.inBuf ++ d })
      ∧ ColaInvCore P (T + d.length) (processLoop P proc w P.nWins
          { s with inBuf := s.inBuf ++ d })
      ∧ ColaPost P (T + d.length) (processLoop P proc w P.nWins
          { s with inBuf := s.inBuf ++ d }) := by
  have hdlen : 0 < d.length := List.length_pos.2 hd
  have hidxlt : s.idx < P.nWins := by
    by_cases hidx : s.idx < P.nWins
    · exact hidx
    · exfalso
      have hidxeq : s.idx = P.nWins := by have := hInv.hidx; omega
      rcases hPost with heq | hlt
      · have hfl := hInv.hflush
        rw [heq, flushedLen_nWins] at hfl
        omega
      · rw [hidxeq, stopAt_nWins] at hlt
        omega
  have hio1 : inOffset P { s with inBuf := s.inBuf ++ d } = T + d.length := by
    show P.startAt s.idx + (s.inBuf ++ d).length = T + d.length
    rw [List.length_append, ← flushedLen_of_lt P hidxlt]
    have := hInv.hinlen
    have := hInv.hflush
    omega
  have hInv1 : ColaInvCore P (T + d.length) { s with inBuf := s.inBuf ++ d } := by
    refine ⟨hInv.hidx, fun i hi => ?_, hle, ?_, ?_, hInv.houtlen, hInv.hsidx, hInv.htiles⟩
    · have := hInv.hdone i hi
      omega
    · show flushedLen P s.idx ≤ T + d.length
      have := hInv.hflush
      omega
    · show (s.inBuf ++ d).length = T + d.length - flushedLen P s.idx
      rw [List.length_append]
      have := hInv.hinlen
      have := hInv.hflush
      omega
  have hfeed : feedC P proc w s d
      = .ok (processLoop P proc w P.nWins { s with inBuf := s.inBuf ++ d }) := by
    unfold feedC
    rw [if_neg (by omega), if_neg (by rw [hio1, stopAt_last P h1]; omega)]
  obtain ⟨hInv2, hPost2⟩ := processLoop_core h1 h2 proc w P.nWins
    { s with inBuf := s.inBuf ++ d } hInv1 (by have := hInv.hidx; omega)
  exact ⟨hfeed, hInv2, hPost2⟩

theorem runFeeds_core {P : COLAParams}
    (h1 : P.nOverlap < P.nSamples) (h2 : P.nSamples ≤ P.nTotal)
    (proc : ℕ → ℕ → List ℚ → List ℚ) (w : List ℚ) :
    ∀ (chunks : List (List ℚ)) (T : ℕ) (s : COLASt), ColaInvCore P T s →
      ColaPost P T s → (∀ c ∈ chunks, c ≠ []) →
      T + (chunks.map List.length).sum ≤ P.nTotal →
      ∃ s1, runFeeds P proc w s chunks = .ok s1
        ∧ ColaInvCore P (T + (chunks.map List.length).sum) s1
        ∧ ColaPost P (T + (chunks.map List.length).sum) s1 := by
  intro chunks
  induction chunks with
  | nil =>
    intro T s hInv hPost _ _
    exact ⟨s, rfl, by simpa using hInv, by simpa using hPost⟩
  | cons c cs ih =>
    intro T s hInv hPost hne htot
    have hsum : ((c :: cs).map List.length).sum
        = c.length + (cs.map List.length).sum := by
      rw [List.map_cons, List.sum_cons]
    obtain ⟨hfeed, hInv1, hPost1⟩ := feedC_core h1 h2 proc w hInv hPost
      (hne c (by simp)) (by omega)
    obtain ⟨s2, hrun2, hInv2, hPost2⟩ := ih (T + c.length) _ hInv1 hPost1
      (fun x hx => hne x (by simp [hx])) (by omega)
    refine ⟨s2, ?_, by rw [hsum, ← Nat.add_assoc]; exact hInv2,
      by rw [hsum, ← Nat.add_assoc]; exact hPost2⟩
    have hrw : runFeeds P proc w s (c :: cs)
        = runFeeds P proc w (processLoop P proc w P.nWins
            { s with inBuf := s.inBuf ++ c }) cs := by
      show (match feedC P proc w s c with
        | Except.error e => (Except.error e : Except String COLASt)
        | Except.ok s1 => runFeeds P proc w s1 cs) = _
      rw [hfeed]
    rw [hrw]
    exact hrun2

theorem init_core (P : COLAParams) (h1 : P.nOverlap < P.nSamples)
    (h2 : P.nSamples ≤ P.nTotal) :
    ColaInvCore P 0 (initSt P) ∧ ColaPost P 0 (initSt P) := by
  constructor
  · refine ⟨show (0 : ℕ) ≤ P.nWins by omega,
      fun i hi => absurd (show i < 0 from hi) (by omega),
      show (0 : ℕ) ≤ P.nTotal by omega, ?_, ?_, ?_, ?_, ?_⟩
    · rw [show (initSt P).idx = 0 from rfl, flushedLen_zero P h1]
    · rw [show (initSt P).idx = 0 from rfl, flushedLen_zero P h1]
      rfl
    · show (List.replicate P.maxLen (0 : ℚ)).length = P.maxLen
      rw [List.length_replicate]
    · rw [show (initSt P).idx = 0 from rfl, flushedLen_zero P h1]
      rfl
    · rw [show (initSt P).idx = 0 from rfl, flushedLen_zero P h1]
      exact rfl
  · right
    show 0 < P.stopAt (initSt P).idx
    by_cases hNW2 : 2 ≤ P.nWins
    · rw [show (initSt P).idx = 0 from rfl, stopAt_eq_of_lt_last P h1 (by omega)]
      omega
    · have hNW1 : P.nWins = 1 := by have := nWins_pos P h1; omega
      have hx := stopAt_last P h1
      rw [hNW1] at hx
      rw [show (initSt P).idx = 0 from rfl, hx]
      omega

/-- C2: for every valid construction and any processing callback, across a
complete run (total fed length equal to `n_total`, fed as any sequence of
nonempty chunks) the chunks delivered to the `_Storer` sink tile
`[0, n_total)` exactly: contiguous, nonempty, in strictly increasing offset
order, with no gaps or overlaps, total length `n_total`; the write cursor
only advances, ending at `n_total`. -/
theorem output_tiling (P : COLAParams) (proc : ℕ → ℕ → List ℚ → List ℚ)
    (w : List ℚ) (chunks : List (List ℚ))
    (h1 : P.nOverlap < P.nSamples) (h2 : P.nSamples ≤ P.nTotal)
    (hne : ∀ c ∈ chunks, c ≠ [])
    (htot : (chunks.map List.length).sum = P.nTotal) :
    ∃ s, runFeeds P proc w (initSt P) chunks = .ok s
      ∧ Tiles (s.writes.map fun pr => (pr.1, pr.2.length)) 0 P.nTotal
      ∧ s.storerIdx = P.nTotal := by
  obtain ⟨hInv0, hPost0⟩ := init_core P h1 h2
  obtain ⟨s, hrun, hInv, hPost⟩ := runFeeds_core h1 h2 proc w chunks 0 (initSt P)
    hInv0 hPost0 hne (by omega)
  have hT : 0 + (chunks.map List.length).sum = P.nTotal := by omega
  rw [hT] at hInv hPost
  have hidxf : s.idx = P.nWins := by
    rcases hPost with h | h
    · exact h
    · exfalso
      by_cases hidx : s.idx < P.nWins
      · have := stopAt_le_nTotal P h1 h2 hidx
        omega
      · have hidxeq : s.idx = P.nWins := by have := hInv.hidx; omega
        rw [hidxeq, stopAt_nWins] at h
        omega
  have hfl : flushedLen P s.idx = P.nTotal := by rw [hidxf, flushedLen_nWins]
  refine ⟨s, hrun, ?_, ?_⟩
  · have := hInv.htiles
    rw [hfl] at this
    exact this
  · have := hInv.hsidx
    rw [hfl] at this
    exact this

/-- Witness for C2: a complete run with `n_total=6, n_samples=4,
n_overlap=2` and a boxcar window, fed as two chunks. -/
theorem output_tiling_witness :
    ∃ s, runFeeds ⟨6, 4, 2⟩ procId (List.replicate 4 1) (initSt ⟨6, 4, 2⟩)
        [[1, 2, 3], [4, 5, 6]] = .ok s
      ∧ Tiles (s.writes.map fun pr => (pr.1, pr.2.length)) 0 6
      ∧ s.storerIdx = 6 :=
  output_tiling ⟨6, 4, 2⟩ procId (List.replicate 4 1) [[1, 2, 3], [4, 5, 6]]
    (by decide) (by decide) (by decide) (by decide)

theorem feedC_overrun {P : COLAParams} {T : ℕ} {s : COLASt}
    (h1 : P.nOverlap < P.nSamples) (proc : ℕ → ℕ → List ℚ → List ℚ) (w : List ℚ)
    (hInv : ColaInvCore P T s) {d : List ℚ} (hgt : P.nTotal < T + d.length) :
    isErr (feedC P proc w s d) = true := by
  unfold feedC
  by_cases hidx : P.nWins ≤ s.idx
  · rw [if_pos hidx]
    rfl
  · rw [if_neg hidx]
    have hio1 : inOffset P { s with inBuf := s.inBuf ++ d } = T + d.length := by
      show P.startAt s.idx + (s.inBuf ++ d).length = T + d.length
      rw [List.length_append, ← flushedLen_of_lt P (by omega)]
      have := hInv.hinlen
      have := hInv.hflush
      omega
    rw [if_pos (by rw [hio1, stopAt_last P h1]; omega)]
    rfl

/-- C4: feeding data whose cumulative length would exceed the declared
`n_total` makes `_COLA.feed` raise on the offending call (before any window
is processed from it); in particular for `n_total=100, n_samples=10,
n_overlap=5`, feeding 60 samples succeeds and then feeding 50 more raises. -/
theorem overrun_rejection :
    (∀ (P : COLAParams) (proc : ℕ → ℕ → List ℚ → List ℚ) (w : List ℚ)
       (T : ℕ) (s : COLASt) (d : List ℚ), P.nOverlap < P.nSamples →
       ColaInvCore P T s → P.nTotal < T + d.length →
       isErr (feedC P proc w s d) = true) ∧
    isErr (feedC ⟨100, 10, 5⟩ procId (List.replicate 10 1) (initSt ⟨100, 10, 5⟩)
      (List.replicate 60 1)) = false ∧
    isErr (runFeeds ⟨100, 10, 5⟩ procId (List.replicate 10 1) (initSt ⟨100, 10, 5⟩)
      [List.replicate 60 1, List.replicate 50 1]) = true := by
  refine ⟨fun P proc w T s d h1 hInv hgt => feedC_overrun h1 proc w hInv hgt, ?_, ?_⟩
  · decide
  · decide

/-- Witness for C4's general statement, applied to the engine's initial
state with an oversized first chunk. -/
theorem overrun_rejection_witness :
    isErr (feedC ⟨6, 4, 2⟩ procId (List.replicate 4 1) (initSt ⟨6, 4, 2⟩)
      (List.replicate 7 1)) = true :=
  overrun_rejection.1 ⟨6, 4, 2⟩ procId (List.replicate 4 1) 0 (initSt ⟨6, 4, 2⟩)
    (List.replicate 7 1) (by decide) (init_core ⟨6, 4, 2⟩ (by decide) (by decide)).1
    (by decide)

/-! The full run with the identity callback: content invariants. -/

theorem get?_of_lt_length {α : Type} (l : List α) (d : α) {j : ℕ} (h : j < l.length) :
    l.get? j = some (l.getD j d) := by
  cases hg : l.get? j with
  | none => exact absurd (List.get?_eq_none.1 hg) (by omega)
  | some a => rw [getD_as_get?, hg]; rfl

theorem startAt_mono (P : COLAParams) (h1 : P.nOverlap < P.nSamples) {i j : ℕ}
    (hij : i ≤ j) (hj : j < P.nWins) : P.startAt i ≤ P.startAt j := by
  rw [startAt_eq P h1 (by omega), startAt_eq P h1 hj]
  exact Nat.mul_le_mul_right _ hij

theorem windowTerm_zero_of_lt_start {P : COLAParams} {w fed : List ℚ} {i t : ℕ}
    (h : t < P.startAt i) : windowTerm P w fed i t = 0 := by
  unfold windowTerm
  rw [if_neg (by omega)]

theorem windowTerm_zero_of_ge_stop {P : COLAParams} {w fed : List ℚ} {i t : ℕ}
    (h : P.stopAt i ≤ t) : windowTerm P w fed i t = 0 := by
  unfold windowTerm
  rw [if_neg (by omega)]

theorem windowTerm_append {P : COLAParams} {w fed d : List ℚ} {i t : ℕ}
    (hstop : P.stopAt i ≤ fed.length) :
    windowTerm P w (fed ++ d) i t = windowTerm P w fed i t := by
  unfold windowTerm
  by_cases hc : P.startAt i ≤ t ∧ t < P.stopAt i
  · rw [if_pos hc, if_pos hc, getD_append_left _ (by omega)]
  · rw [if_neg hc, if_neg hc]

theorem partialOut_append {P : COLAParams} {w fed d : List ℚ} {k : ℕ}
    (hdone : ∀ i < k, P.stopAt i ≤ fed.length) (t : ℕ) :
    partialOut P w (fed ++ d) k t = partialOut P w fed k t := by
  unfold partialOut
  exact Finset.sum_congr rfl fun i hi =>
    windowTerm_append (hdone i (Finset.mem_range.1 hi))

theorem totalOut_append {P : COLAParams} {w fed d : List ℚ}
    (h1 : P.nOverlap < P.nSamples) {k : ℕ} (hk : k ≤ P.nWins)
    (hdone : ∀ i < k, P.stopAt i ≤ fed.length) {u : ℕ}
    (hu : u < flushedLen P k) :
    totalOut P w (fed ++ d) u = totalOut P w fed u := by
  unfold totalOut partialOut
  refine Finset.sum_congr rfl fun i hi => ?_
  rcases Nat.lt_or_ge i k with hik | hik
  · exact windowTerm_append (hdone i hik)
  · have hkW : k < P.nWins := by
      rcases Nat.lt_or_ge k P.nWins with hc | hc
      · exact hc
      · exfalso
        have : i < P.nWins := Finset.mem_range.1 hi
        omega
    have hustart : u < P.startAt i := by
      have hfl := flushedLen_of_lt P hkW
      have := startAt_mono P h1 hik (Finset.mem_range.1 hi)
      omega
    rw [windowTerm_zero_of_lt_start hustart, windowTerm_zero_of_lt_start hustart]

theorem partialOut_eq_totalOut {P : COLAParams} {w fed : List ℚ}
    (h1 : P.nOverlap < P.nSamples) {k t : ℕ} (hk : k ≤ P.nWins)
    (ht : t < flushedLen P k) :
    partialOut P w fed k t = totalOut P w fed t := by
  unfold totalOut partialOut
  refine Finset.sum_subset (Finset.range_subset.2 hk) fun i hi hni => ?_
  have hik : k ≤ i := by
    have := Finset.mem_range.1 hi
    rcases Nat.lt_or_ge i k with hc | hc
    · exact absurd (Finset.mem_range.2 hc) hni
    · exact hc
  have hkW : k < P.nWins := by
    have := Finset.mem_range.1 hi
    omega
  have hustart : t < P.startAt i := by
    have hfl := flushedLen_of_lt P hkW
    have := startAt_mono P h1 hik (Finset.mem_range.1 hi)
    omega
  exact windowTerm_zero_of_lt_start hustart

theorem processOne_id {P : COLAParams} {w fed : List ℚ} {s : COLASt}
    (h1 : P.nOverlap < P.nSamples) (h2 : P.nSamples ≤ P.nTotal)
    (hw : w.length = P.nSamples)
    (hInv : ColaInvId P w fed s) (hk : s.idx < P.nWins)
    (hstop : P.stopAt s.idx ≤ fed.length) :
    ColaInvId P w fed (processOne P procId w s) := by
  have hcore := (processOne_core h1 h2 procId w hInv.core hk hstop).1
  have hfl : flushedLen P s.idx = P.startAt s.idx := flushedLen_of_lt P hk
  have hfl1 : flushedLen P s.idx < flushedLen P (s.idx + 1) :=
    flushedLen_succ_lt P h1 h2 hk
  have hstopf : flushedLen P (s.idx + 1) ≤ P.stopAt s.idx :=
    flushedLen_succ_le_stop P h1 h2 hk
  have hdle : flushedLen P (s.idx + 1) - flushedLen P s.idx ≤ P.maxLen :=
    delta_le_maxLen P h1 h2 hk
  have htlm : P.stopAt s.idx - P.startAt s.idx ≤ P.maxLen := thisLen_le_maxLen P h1 h2 hk
  have hflstop : flushedLen P s.idx ≤ P.stopAt s.idx := by omega
  have hdeltaE : (if s.idx + 1 < P.nWins then P.startAt (s.idx + 1)
      else P.stopAt (P.nWins - 1)) - P.startAt s.idx
      = flushedLen P (s.idx + 1) - flushedLen P s.idx := by
    rw [nextStart_eq P h1 hk, hfl]
  have hwinlen : (thisWindowAt P w s.idx).length = P.stopAt s.idx - P.startAt s.idx :=
    length_thisWindowAt h1 h2 hw hk
  have hinblen : s.inBuf.length = fed.length - flushedLen P s.idx := hInv.core.hinlen
  have hproclen : (s.inBuf.take (P.stopAt s.idx - P.startAt s.idx)).length
      = P.stopAt s.idx - P.startAt s.idx := by
    rw [List.length_take]
    omega
  have hOUT : ∀ j : ℕ, (List.zipWith (· * ·)
      (s.inBuf.take (P.stopAt s.idx - P.startAt s.idx)) (thisWindowAt P w s.idx)).getD j 0
      = (if j < P.stopAt s.idx - P.startAt s.idx
         then fed.getD (P.startAt s.idx + j) 0 * (thisWindowAt P w s.idx).getD j 0
         else 0) := by
    intro j
    by_cases hj : j < P.stopAt s.idx - P.startAt s.idx
    · rw [if_pos hj, getD_zipWith _ _ _ (by omega) (by omega)]
      congr 1
      rw [getD_take _ _ hj, hInv.hin, getD_drop, hfl]
    · rw [if_neg hj, getD_of_len_le 0
        (by rw [List.length_zipWith, hproclen, hwinlen]; omega)]
  have hOUTlen : (List.zipWith (· * ·)
      (s.inBuf.take (P.stopAt s.idx - P.startAt s.idx))
      (thisWindowAt P w s.idx)).length = P.stopAt s.idx - P.startAt s.idx := by
    rw [List.length_zipWith, hproclen, hwinlen]
    omega
  have htmp : ∀ j < P.maxLen, (addAt s.outBuf 0 (List.zipWith (· * ·)
      (s.inBuf.take (P.stopAt s.idx - P.startAt s.idx))
      (thisWindowAt P w s.idx))).getD j 0
      = partialOut P w fed (s.idx + 1) (flushedLen P s.idx + j) := by
    intro j hj
    rw [getD_addAt _ _ _ (by rw [hInv.core.houtlen]; exact hj), hInv.hout j hj]
    unfold partialOut
    rw [Finset.sum_range_succ]
    congr 1
    rw [hOUTlen]
    unfold windowTerm
    by_cases hj2 : j < P.stopAt s.idx - P.startAt s.idx
    · rw [if_pos (by omega), Nat.sub_zero, hOUT j, if_pos hj2, if_pos (by omega), hfl]
      congr 2
      omega
    · rw [if_neg (by omega), if_neg (by omega)]
  have htmplen : (addAt s.outBuf 0 (List.zipWith (· * ·)
      (s.inBuf.take (P.stopAt s.idx - P.startAt s.idx))
      (thisWindowAt P w s.idx))).length = P.maxLen := by
    rw [length_addAt, hInv.core.houtlen]
  refine ⟨hcore, ?_, ?_, ?_⟩
  · -- the input buffer is the unconsumed suffix
    show s.inBuf.drop ((if s.idx + 1 < P.nWins then P.startAt (s.idx + 1)
      else P.stopAt (P.nWins - 1)) - P.startAt s.idx)
      = fed.drop (flushedLen P (s.idx + 1))
    rw [hdeltaE, hInv.hin, List.drop_drop]
    congr 1
    omega
  · -- the output accumulator carries the shifted partial sums
    intro j hj
    show ((addAt s.outBuf 0 (List.zipWith (· * ·)
        (s.inBuf.take (P.stopAt s.idx - P.startAt s.idx))
        (thisWindowAt P w s.idx))).drop ((if s.idx + 1 < P.nWins
          then P.startAt (s.idx + 1) else P.stopAt (P.nWins - 1)) - P.startAt s.idx)
        ++ List.replicate (min ((if s.idx + 1 < P.nWins then P.startAt (s.idx + 1)
          else P.stopAt (P.nWins - 1)) - P.startAt s.idx)
          (addAt s.outBuf 0 (List.zipWith (· * ·)
            (s.inBuf.take (P.stopAt s.idx - P.startAt s.idx))
            (thisWindowAt P w s.idx))).length) 0).getD j 0
      = partialOut P w fed (s.idx + 1) (flushedLen P (s.idx + 1) + j)
    rw [hdeltaE, htmplen]
    by_cases hjd : j + (flushedLen P (s.idx + 1) - flushedLen P s.idx) < P.maxLen
    · rw [getD_append_left _ (by rw [List.length_drop, htmplen]; omega), getD_drop,
        htmp _ (by omega)]
      congr 1
      omega
    · rw [getD_append_right _ (by rw [List.length_drop, htmplen]; omega)]
      have hz : (List.replicate (min (flushedLen P (s.idx + 1) - flushedLen P s.idx)
          P.maxLen) (0 : ℚ)).getD
          (j - ((addAt s.outBuf 0 (List.zipWith (· * ·)
            (s.inBuf.take (P.stopAt s.idx - P.startAt s.idx))
            (thisWindowAt P w s.idx))).drop
            (flushedLen P (s.idx + 1) - flushedLen P s.idx)).length) 0 = 0 := by
        rcases Nat.lt_or_ge (j - ((addAt s.outBuf 0 (List.zipWith (· * ·)
            (s.inBuf.take (P.stopAt s.idx - P.startAt s.idx))
            (thisWindowAt P w s.idx))).drop
            (flushedLen P (s.idx + 1) - flushedLen P s.idx)).length)
            (min (flushedLen P (s.idx + 1) - flushedLen P s.idx) P.maxLen) with hc | hc
        · exact getD_replicate 0 0 hc
        · exact getD_of_len_le 0 (by rw [List.length_replicate]; omega)
      rw [hz]
      symm
      unfold partialOut
      refine Finset.sum_eq_zero fun i hi => ?_
      have hi2 : i < s.idx + 1 := Finset.mem_range.1 hi
      refine windowTerm_zero_of_ge_stop ?_
      have hle1 : P.stopAt i ≤ P.stopAt s.idx := stopAt_le_of_le P h1 h2 (by omega) hk
      omega
  · -- the sink holds the finished overlap-add prefix
    show storedList (processOne P procId w s)
        = (List.range (flushedLen P (s.idx + 1))).map fun u => totalOut P w fed u
    have hwrites : (processOne P procId w s).writes
        = s.writes ++ [(s.storerIdx, (addAt s.outBuf 0
          (List.zipWith (· * ·) (s.inBuf.take (P.stopAt s.idx - P.startAt s.idx))
            (thisWindowAt P w s.idx))).take ((if s.idx + 1 < P.nWins
              then P.startAt (s.idx + 1) else P.stopAt (P.nWins - 1)) - P.startAt s.idx))] :=
      rfl
    have hsl : storedList (processOne P procId w s)
        = storedList s ++ (addAt s.outBuf 0
            (List.zipWith (· * ·) (s.inBuf.take (P.stopAt s.idx - P.startAt s.idx))
              (thisWindowAt P w s.idx))).take ((if s.idx + 1 < P.nWins
                then P.startAt (s.idx + 1) else P.stopAt (P.nWins - 1)) - P.startAt s.idx) := by
      unfold storedList
      rw [hwrites, List.map_append, List.flatten_append]
      simp
    rw [hsl]
    have hchunk : (addAt s.outBuf 0
        (List.zipWith (· * ·) (s.inBuf.take (P.stopAt s.idx - P.startAt s.idx))
          (thisWindowAt P w s.idx))).take ((if s.idx + 1 < P.nWins
            then P.startAt (s.idx + 1) else P.stopAt (P.nWins - 1)) - P.startAt s.idx)
        = (List.range (flushedLen P (s.idx + 1) - flushedLen P s.idx)).map
            fun j => totalOut P w fed (flushedLen P s.idx + j) := by
      rw [hdeltaE]
      apply List.ext_get?
      intro n
      rcases Nat.lt_or_ge n (flushedLen P (s.idx + 1) - flushedLen P s.idx) with hn | hn
      · rw [List.get?_take hn, get?_of_lt_length _ (0 : ℚ) (by rw [htmplen]; omega),
          List.get?_map, List.get?_range hn]
        rw [htmp n (by omega),
          partialOut_eq_totalOut h1 (by omega) (by omega)]
        rfl
      · rw [List.get?_len_le (by rw [List.length_take, htmplen]; omega),
          List.get?_len_le (by rw [List.length_map, List.length_range]; omega)]
    rw [hchunk, hInv.hstored]
    set D := flushedLen P (s.idx + 1) - flushedLen P s.idx with hD
    have hsplit : flushedLen P (s.idx + 1) = flushedLen P s.idx + D := by omega
    rw [hsplit, List.range_add, List.map_append, List.map_map]
    simp [Function.comp]

theorem processLoop_id {P : COLAParams} {w fed : List ℚ}
    (h1 : P.nOverlap < P.nSamples) (h2 : P.nSamples ≤ P.nTotal)
    (hw : w.length = P.nSamples) :
    ∀ (fuel : ℕ) (s : COLASt), ColaInvId P w fed s → P.nWins - s.idx ≤ fuel →
      ColaInvId P w fed (processLoop P procId w fuel s)
        ∧ ColaPost P fed.length (processLoop P procId w fuel s) := by
  intro fuel
  induction fuel with
  | zero =>
    intro s hInv hf
    have hidx : s.idx = P.nWins := by have := hInv.core.hidx; omega
    exact ⟨hInv, Or.inl hidx⟩
  | succ fuel ih =>
    intro s hInv hf
    rw [processLoop_succ]
    by_cases hcond : s.idx < P.nWins ∧ P.stopAt s.idx ≤ inOffset P s
    · rw [if_pos hcond]
      have hstop : P.stopAt s.idx ≤ fed.length := by
        have hio := inOffset_eq_of_core hInv.core hcond.1
        have := hcond.2
        omega
      have hInv2 := processOne_id h1 h2 hw hInv hcond.1 hstop
      have hidx2 : (processOne P procId w s).idx = s.idx + 1 := rfl
      exact ih _ hInv2 (by rw [hidx2]; omega)
    · rw [if_neg hcond]
      refine ⟨hInv, ?_⟩
      by_cases hidx : s.idx < P.nWins
      · right
        have hno : ¬ P.stopAt s.idx ≤ inOffset P s := fun h => hcond ⟨hidx, h⟩
        rw [inOffset_eq_of_core hInv.core hidx] at hno
        omega
      · left
        have := hInv.core.hidx
        omega

theorem appendSt_id {P : COLAParams} {w fed : List ℚ} {s : COLASt}
    (h1 : P.nOverlap < P.nSamples)
    (hInv : ColaInvId P w fed s) (hk : s.idx < P.nWins) (d : List ℚ)
    (hle : fed.length + d.length ≤ P.nTotal) :
    ColaInvId P w (fed ++ d) { s with inBuf := s.inBuf ++ d } := by
  have hflush := hInv.core.hflush
  have hinlen := hInv.core.hinlen
  refine ⟨⟨hInv.core.hidx, ?_, ?_, ?_, ?_, hInv.core.houtlen, hInv.core.hsidx,
    hInv.core.htiles⟩, ?_, ?_, ?_⟩
  · intro i hi
    have := hInv.core.hdone i hi
    rw [List.length_append]
    omega
  · rw [List.length_append]
    exact hle
  · show flushedLen P s.idx ≤ (fed ++ d).length
    rw [List.length_append]
    omega
  · show (s.inBuf ++ d).length = (fed ++ d).length - flushedLen P s.idx
    rw [List.length_append, List.length_append]
    omega
  · show s.inBuf ++ d = (fed ++ d).drop (flushedLen P s.idx)
    rw [List.drop_append_of_le_length hflush, hInv.hin]
  · intro j hj
    show s.outBuf.getD j 0 = partialOut P w (fed ++ d) s.idx (flushedLen P s.idx + j)
    rw [partialOut_append hInv.core.hdone]
    exact hInv.hout j hj
  · show storedList s
      = (List.range (flushedLen P s.idx)).map fun u => totalOut P w (fed ++ d) u
    rw [hInv.hstored]
    refine List.map_eq_map_iff.mpr fun u hu => ?_
    exact (totalOut_append h1 hInv.core.hidx hInv.core.hdone (List.mem_range.1 hu)).symm

theorem feedC_id {P : COLAParams} {w fed : List ℚ} {s : COLASt}
    (h1 : P.nOverlap < P.nSamples) (h2 : P.nSamples ≤ P.nTotal)
    (hw : w.length = P.nSamples)
    (hInv : ColaInvId P w fed s) (hPost : ColaPost P fed.length s)
    {d : List ℚ} (hd : d ≠ []) (hle : fed.length + d.length ≤ P.nTotal) :
    feedC P procId w s d
        = .ok (processLoop P procId w P.nWins { s with inBuf := s.inBuf ++ d })
      ∧ ColaInvId P w (fed ++ d) (processLoop P procId w P.nWins
          { s with inBuf := s.inBuf ++ d })
      ∧ ColaPost P (fed ++ d).length (processLoop P procId w P.nWins
          { s with inBuf := s.inBuf ++ d }) := by
  have hfeed := (feedC_core h1 h2 procId w hInv.core hPost hd hle).1
  have hdlen : 0 < d.length := List.length_pos.2 hd
  have hidxlt : s.idx < P.nWins := by
    by_cases hidx : s.idx < P.nWins
    · exact hidx
    · exfalso
      have hidxeq : s.idx = P.nWins := by have := hInv.core.hidx; omega
      rcases hPost with heq | hlt
      · have hfl := hInv.core.hflush
        rw [heq, flushedLen_nWins] at hfl
        omega
      · rw [hidxeq, stopAt_nWins] at hlt
        omega
  have hInv1 := appendSt_id h1 hInv hidxlt d hle
  obtain ⟨hInv2, hPost2⟩ := processLoop_id h1 h2 hw P.nWins _ hInv1 (Nat.sub_le _ _)
  rw [List.length_append] at hPost2
  rw [show (fed ++ d).length = fed.length + d.length from List.length_append fed d]
  exact ⟨hfeed, hInv2, hPost2⟩

theorem runFeeds_id {P : COLAParams} {w : List ℚ}
    (h1 : P.nOverlap < P.nSamples) (h2 : P.nSamples ≤ P.nTotal)
    (hw : w.length = P.nSamples) :
    ∀ (chunks : List (List ℚ)) (fed : List ℚ) (s : COLASt),
      ColaInvId P w fed s → ColaPost P fed.length s →
      (∀ c ∈ chunks, c ≠ []) →
      fed.length + (chunks.map List.length).sum ≤ P.nTotal →
      ∃ s1, runFeeds P procId w s chunks = .ok s1
        ∧ ColaInvId P w (fed ++ chunks.flatten) s1
        ∧ ColaPost P (fed ++ chunks.flatten).length s1 := by
  intro chunks
  induction chunks with
  | nil =>
    intro fed s hInv hPost _ _
    exact ⟨s, rfl, by simpa using hInv, by simpa using hPost⟩
  | cons c cs ih =>
    intro fed s hInv hPost hne htot
    have hsum : ((c :: cs).map List.length).sum
        = c.length + (cs.map List.length).sum := by
      rw [List.map_cons, List.sum_cons]
    rw [hsum] at htot
    obtain ⟨hfeed, hInv1, hPost1⟩ := feedC_id h1 h2 hw hInv hPost
      (hne c (by simp)) (by omega)
    rw [show (fed ++ c).length = fed.length + c.length from List.length_append fed c]
      at hPost1
    obtain ⟨s2, hrun2, hInv2, hPost2⟩ := ih (fed ++ c) _ hInv1
      (by rw [List.length_append]; exact hPost1)
      (fun x hx => hne x (by simp [hx])) (by rw [List.length_append]; omega)
    refine ⟨s2, ?_, ?_, ?_⟩
    · have hrw : runFeeds P procId w s (c :: cs)
          = runFeeds P procId w (processLoop P procId w P.nWins
              { s with inBuf := s.inBuf ++ c }) cs := by
        show (match feedC P procId w s c with
          | Except.error e => (Except.error e : Except String COLASt)
          | Except.ok s1 => runFeeds P procId w s1 cs) = _
        rw [hfeed]
      rw [hrw]
      exact hrun2
    · rw [List.flatten_cons, ← List.append_assoc]
      exact hInv2
    · rw [List.flatten_cons, ← List.append_assoc]
      exact hPost2

theorem init_id (P : COLAParams) (w : List ℚ) (h1 : P.nOverlap < P.nSamples)
    (h2 : P.nSamples ≤ P.nTotal) :
    ColaInvId P w [] (initSt P) := by
  have hfl0 : flushedLen P 0 = 0 := flushedLen_zero P h1
  refine ⟨(init_core P h1 h2).1, ?_, ?_, ?_⟩
  · show ([] : List ℚ) = ([] : List ℚ).drop (flushedLen P (initSt P).idx)
    rw [List.drop_nil]
  · intro j hj
    show (List.replicate P.maxLen (0 : ℚ)).getD j 0
        = partialOut P w [] (initSt P).idx (flushedLen P (initSt P).idx + j)
    rw [getD_replicate _ _ hj]
    show (0 : ℚ) = partialOut P w [] 0 (flushedLen P 0 + j)
    unfold partialOut
    rw [Finset.sum_range_zero]
  · show ([] : List ℚ)
      = (List.range (flushedLen P 0)).map fun u => totalOut P w [] u
    rw [hfl0]
    simp

/-! Helpers relating the normalized window, the gain and the final output,
for the round-trip theorem. -/

theorem getD_map_div (l : List ℚ) (c : ℚ) (i : ℕ) :
    (l.map fun x => x / c).getD i 0 = l.getD i 0 / c := by
  rcases Nat.lt_or_ge i l.length with h | h
  · rw [getD_as_get?, List.get?_map, get?_of_lt_length _ 0 h]
    rfl
  · rw [getD_of_len_le 0 (by rw [List.length_map]; omega), getD_of_len_le 0 h, zero_div]

theorem combAt_map_div (w : List ℚ) (c : ℚ) (step j : ℕ) :
    combAt (w.map fun x => x / c) step j = combAt w step j / c := by
  unfold combAt
  rw [List.length_map, Finset.sum_div]
  refine Finset.sum_congr rfl fun m hm => ?_
  by_cases h : j + m * step < w.length
  · rw [if_pos h, if_pos h, getD_map_div]
  · rw [if_neg h, if_neg h, zero_div]

theorem totalOut_eq_gain_mul (P : COLAParams) (w fed : List ℚ) (t : ℕ) :
    totalOut P w fed t = fed.getD t 0 * gainAt P w t := by
  unfold totalOut partialOut gainAt
  rw [Finset.mul_sum]
  refine Finset.sum_congr rfl fun i hi => ?_
  unfold windowTerm
  by_cases h : P.startAt i ≤ t ∧ t < P.stopAt i
  · rw [if_pos h, if_pos h]
  · rw [if_neg h, if_neg h, mul_zero]

theorem map_range_getD (l : List ℚ) :
    (List.range l.length).map (fun t => l.getD t 0) = l := by
  apply List.ext_get?
  intro n
  rcases Nat.lt_or_ge n l.length with h | h
  · rw [List.get?_map, List.get?_range h, get?_of_lt_length _ 0 h]
    rfl
  · rw [List.get?_len_le (by rw [List.length_map, List.length_range]; omega),
      List.get?_len_le h]

/-- C1: for any window samples, window length and hop satisfying the
constant-sum (COLA) property (hop-sized block sums of the window constant,
with a nonzero constant), the engine built by `_COLA.__init__` and run with
the identity processing callback over a stream of length `n_total` — fed as
any sequence of nonempty chunks totalling `n_total` samples — delivers to
the sink exactly the original input signal at every sample (the rational
model has no rounding, so "within floating tolerance" is exact equality). -/
theorem cola_roundtrip (nTotal nSamples nOverlap : ℤ) (win : List ℚ) (tol c : ℚ)
    (chunks : List (List ℚ))
    (h0 : 0 ≤ nOverlap) (h1 : nOverlap < nSamples) (h2 : nSamples ≤ nTotal)
    (hwlen : win.length = nSamples.toNat)
    (hbins : binsums win nSamples.toNat (nSamples - nOverlap).toNat
      = List.replicate (nSamples - nOverlap).toNat c)
    (hc : c ≠ 0) (htol : 0 ≤ tol)
    (hne : ∀ ch ∈ chunks, ch ≠ [])
    (htot : (chunks.map List.length).sum = nTotal.toNat) :
    ∃ P nw s, colaInit nTotal nSamples nOverlap win tol = .ok (P, nw)
      ∧ runFeeds P procId nw (initSt P) chunks = .ok s
      ∧ storedList s = chunks.flatten := by
  have hsp : (0 : ℤ) < nSamples := by omega
  set P : COLAParams := ⟨nTotal.toNat, nSamples.toNat, nOverlap.toNat⟩ with hP
  have h1' : P.nOverlap < P.nSamples := by
    show nOverlap.toNat < nSamples.toNat
    omega
  have h2' : P.nSamples ≤ P.nTotal := by
    show nSamples.toNat ≤ nTotal.toNat
    omega
  have hstepE : P.step = (nSamples - nOverlap).toNat := by
    show nSamples.toNat - nOverlap.toNat = (nSamples - nOverlap).toNat
    omega
  have hstep0 : 0 < (nSamples - nOverlap).toNat := by omega
  have hchk : checkCola win nSamples.toNat (nSamples - nOverlap).toNat tol = .ok c :=
    checkCola_of_const_binsums hstep0 hbins htol
  have hinit : colaInit nTotal nSamples nOverlap win tol
      = .ok (P, win.map fun x => x / c) := by
    unfold colaInit
    rw [if_neg (by omega), if_neg (by omega), if_neg (by omega), if_neg (by omega),
      if_neg (by omega), hchk]
  set nw : List ℚ := win.map fun x => x / c with hnw
  have hnwlen : nw.length = P.nSamples := by
    rw [hnw, List.length_map, hwlen]
  have hcomb : ∀ j < P.step, combAt nw P.step j = 1 := by
    intro j hj
    rw [hstepE] at hj
    rw [hnw, hstepE, combAt_map_div]
    have hg := getD_binsums win hstep0 (by omega) hwlen hj
    rw [hbins, getD_replicate _ _ hj] at hg
    rw [← hg, div_self hc]
  obtain ⟨s, hrun, hInv, hPost⟩ := runFeeds_id h1' h2' hnwlen chunks [] (initSt P)
    (init_id P nw h1' h2') (init_core P h1' h2').2 hne
    (by show ([] : List ℚ).length + (chunks.map List.length).sum ≤ nTotal.toNat
        rw [htot]
        simp)
  have hflat : ([] : List ℚ) ++ chunks.flatten = chunks.flatten := List.nil_append _
  rw [hflat] at hInv hPost
  have hlen : chunks.flatten.length = P.nTotal := by
    rw [List.length_join, htot]
  have hidxf : s.idx = P.nWins := by
    rcases hPost with h | h
    · exact h
    · exfalso
      rw [hlen] at h
      by_cases hidx : s.idx < P.nWins
      · have := stopAt_le_nTotal P h1' h2' hidx
        omega
      · have hidxeq : s.idx = P.nWins := by have := hInv.core.hidx; omega
        rw [hidxeq, stopAt_nWins] at h
        omega
  have hfl : flushedLen P s.idx = P.nTotal := by rw [hidxf, flushedLen_nWins]
  have hstored := hInv.hstored
  rw [hfl] at hstored
  have hgain : ∀ t < P.nTotal, totalOut P nw chunks.flatten t
      = chunks.flatten.getD t 0 := by
    intro t ht
    rw [totalOut_eq_gain_mul, gainAt_eq_one h1' h2' hnwlen hcomb ht, mul_one]
  have hmap : (List.range P.nTotal).map (fun u => totalOut P nw chunks.flatten u)
      = (List.range P.nTotal).map (fun u => chunks.flatten.getD u 0) :=
    List.map_eq_map_iff.mpr fun u hu => hgain u (List.mem_range.1 hu)
  rw [hmap, ← hlen, map_range_getD] at hstored
  exact ⟨P, nw, s, hinit, hrun, hstored⟩

/-- Witness for C1: a boxcar window of length 4 with hop 2 over a stream
of 7 samples fed in three chunks reconstructs the input exactly. -/
theorem cola_roundtrip_witness :
    ∃ P nw s, colaInit 7 4 2 [1, 1, 1, 1] 0 = .ok (P, nw)
      ∧ runFeeds P procId nw (initSt P) [[1, 2, 3], [4], [5, 6, 7]] = .ok s
      ∧ storedList s = ([[1, 2, 3], [4], [5, 6, 7]] : List (List ℚ)).flatten :=
  cola_roundtrip 7 4 2 [1, 1, 1, 1] 0 2 [[1, 2, 3], [4], [5, 6, 7]]
    (by decide) (by decide) (by decide) (by decide)
    (by show binsums [1, 1, 1, 1] 4 2 = [(2 : ℚ), 2]
        norm_num [binsums, addAt, List.range_succ])
    (by decide) (by decide) (by decide) (by decide)

/-- C8: engine construction fails with a configuration error if the window
length exceeds the total length, if the hop `n_samples - n_overlap` is
non-positive, or if COLA validation of the chosen window fails — for every
such argument combination the constructor raises rather than producing an
instance. -/
theorem cola_construction_errors (nTotal nSamples nOverlap : ℤ) (win : List ℚ)
    (tol : ℚ)
    (h : nTotal < nSamples ∨ nSamples ≤ nOverlap
      ∨ isErr (checkCola win nSamples.toNat (nSamples - nOverlap).toNat tol) = true) :
    isErr (colaInit nTotal nSamples nOverlap win tol) = true := by
  unfold colaInit
  by_cases c1 : nSamples ≤ 0
  · rw [if_pos c1]
    rfl
  rw [if_neg c1]
  by_cases c2 : nOverlap < 0
  · rw [if_pos c2]
    rfl
  rw [if_neg c2]
  by_cases c3 : nTotal < 0
  · rw [if_pos c3]
    rfl
  rw [if_neg c3]
  by_cases c4 : nTotal < nSamples
  · rw [if_pos c4]
    rfl
  rw [if_neg c4]
  by_cases c5 : nSamples ≤ nOverlap
  · rw [if_pos c5]
    rfl
  rw [if_neg c5]
  cases hchk : checkCola win nSamples.toNat (nSamples - nOverlap).toNat tol with
  | error e => rfl
  | ok cst =>
    rcases h with h | h | h
    · omega
    · omega
    · rw [hchk] at h
      exact absurd h (by simp [isErr])

/-- Witness for C8: a window of 4 samples over a declared total of only 3. -/
theorem cola_construction_errors_witness :
    isErr (colaInit 3 4 2 [1, 1, 1, 1] 0) = true :=
  cola_construction_errors 3 4 2 [1, 1, 1, 1] 0 (Or.inl (by decide))

/-! Validation of `_Interp2.__init__`: `np.unique` equality versus strict
sortedness. -/

theorem sortedDedup_iff (cp : List ℤ) :
    (cp.insertionSort (· ≤ ·)).dedup = cp ↔ cp.Pairwise (· < ·) := by
  constructor
  · intro h
    have hsorted : (cp.insertionSort (· ≤ ·)).Pairwise (· ≤ ·) :=
      List.sorted_insertionSort _ cp
    have hsub : (cp.insertionSort (· ≤ ·)).dedup.Sublist (cp.insertionSort (· ≤ ·)) :=
      List.dedup_sublist _
    have hle : (cp.insertionSort (· ≤ ·)).dedup.Pairwise (· ≤ ·) := hsorted.sublist hsub
    have hne : (cp.insertionSort (· ≤ ·)).dedup.Pairwise (· ≠ ·) :=
      List.nodup_dedup _
    have hlt : (cp.insertionSort (· ≤ ·)).dedup.Pairwise (· < ·) :=
      (hle.and hne).imp fun hab => lt_of_le_of_ne hab.1 hab.2
    rw [h] at hlt
    exact hlt
  · intro h
    have hsorted : List.Sorted (· ≤ ·) cp := h.imp fun hab => le_of_lt hab
    have hnodup : cp.Nodup := h.imp fun hab => ne_of_lt hab
    rw [List.Sorted.insertionSort_eq hsorted, List.dedup_eq_self.2 hnodup]

/-- C9 (amended): `_Interp2.__init__` raises a validation error exactly when
the control points are not sorted-and-unique (strictly increasing), the
control-point list is empty, some control point is negative, some provided
value array's leading dimension differs from the number of control points,
or the blend kind is unknown; it succeeds otherwise.  (The original claim
omits the empty-control-point-list error.) -/
theorem interp_init_validation (cp : List ℤ) (values : List (Option (List ℝ)))
    (interp : String) :
    isErr (interpInit cp values interp) = true
      ↔ ¬ cp.Pairwise (· < ·) ∨ cp = []
        ∨ (∃ x ∈ cp, x < 0)
        ∨ (∃ v ∈ values, ∃ a, v = some a ∧ a.length ≠ cp.length)
        ∨ interp ∉ knownTypes := by
  unfold interpInit
  by_cases c1 : (cp.insertionSort (· ≤ ·)).dedup ≠ cp
  · rw [if_pos c1]
    simp only [isErr, true_iff]
    exact Or.inl fun hp => c1 ((sortedDedup_iff cp).2 hp)
  rw [if_neg c1]
  have hp1 : cp.Pairwise (· < ·) := (sortedDedup_iff cp).1 (not_not.1 c1)
  by_cases c2 : cp.length = 0
  · rw [if_pos c2]
    simp only [isErr, true_iff]
    exact Or.inr (Or.inl (List.length_eq_zero.1 c2))
  rw [if_neg c2]
  by_cases c3 : cp.any (· < 0) = true
  · rw [if_pos c3]
    simp only [isErr, true_iff]
    refine Or.inr (Or.inr (Or.inl ?_))
    obtain ⟨x, hx, hx2⟩ := List.any_eq_true.1 c3
    exact ⟨x, hx, by simpa using hx2⟩
  rw [if_neg c3]
  by_cases c4 : values.any (fun v => match v with
      | some a => a.length ≠ cp.length
      | none => false) = true
  · rw [if_pos c4]
    simp only [isErr, true_iff]
    refine Or.inr (Or.inr (Or.inr (Or.inl ?_)))
    obtain ⟨v, hv, hv2⟩ := List.any_eq_true.1 c4
    cases v with
    | none => exact absurd hv2 (by simp)
    | some a => exact ⟨some a, hv, a, rfl, by simpa using hv2⟩
  rw [if_neg c4]
  by_cases c5 : interp ∉ knownTypes
  · rw [if_pos c5]
    simp only [isErr, true_iff]
    exact Or.inr (Or.inr (Or.inr (Or.inr c5)))
  rw [if_neg c5]
  simp only [isErr, Bool.false_eq_true, false_iff]
  intro h
  rcases h with h | h | h | h | h
  · exact h hp1
  · exact c2 (by rw [h]; rfl)
  · obtain ⟨x, hx, hx2⟩ := h
    exact c3 (List.any_eq_true.2 ⟨x, hx, by simpa using hx2⟩)
  · obtain ⟨v, hv, a, rfl, ha⟩ := h
    exact c4 (List.any_eq_true.2 ⟨some a, hv, by simpa using ha⟩)
  · exact c5 h

/-- Counterexample to C9 as stated: the empty control-point list triggers
none of the claimed error conditions, yet construction raises
("Must be at least one control point"). -/
theorem interp_init_empty_counterexample :
    List.Pairwise (fun a b : ℤ => a < b) ([] : List ℤ)
    ∧ (¬ ∃ x ∈ ([] : List ℤ), x < 0)
    ∧ (¬ ∃ v ∈ ([] : List (Option (List ℝ))), ∃ a, v = some a ∧ a.length ≠ 0)
    ∧ "hann" ∈ knownTypes
    ∧ isErr (interpInit [] [] "hann") = true := by
  refine ⟨List.Pairwise.nil, by simp, by simp, by decide, rfl⟩

/-- C7: between adjacent control points `p0 < p1`, the blend weight curve of
`_Interp2` is absent for the `zero` kind, `1 - t/(p1-p0)` for `linear`, and
`cos^2((pi/2) * t/(p1-p0))` for the raised-cosine kinds `cos2` and `hann`;
the weight is `1` at offset `0`, so the blended value
`left*w + right*(1-w)` equals the left value at offset `0` for every kind. -/
theorem blend_weight_formulas (p0 p1 : ℕ) (hlt : p0 < p1) (left right : ℝ) :
    useInterpCurve "zero" (p1 - p0) = none
    ∧ useInterpCurve "linear" (p1 - p0)
        = some (fun t : ℕ => 1 - (t : ℝ) / ((p1 - p0 : ℕ) : ℝ))
    ∧ useInterpCurve "cos2" (p1 - p0)
        = some (fun t : ℕ => Real.cos (Real.pi / 2 * ((t : ℝ) / ((p1 - p0 : ℕ) : ℝ))) ^ 2)
    ∧ useInterpCurve "hann" (p1 - p0) = useInterpCurve "cos2" (p1 - p0)
    ∧ (∀ f, useInterpCurve "linear" (p1 - p0) = some f → f 0 = 1)
    ∧ (∀ f, useInterpCurve "cos2" (p1 - p0) = some f → f 0 = 1)
    ∧ (∀ f, useInterpCurve "hann" (p1 - p0) = some f → f 0 = 1)
    ∧ ∀ interp, blendSample left right
        ((useInterpCurve interp (p1 - p0)).map fun f => f 0) = left := by
  have hzero : useInterpCurve "zero" (p1 - p0) = none := by
    rw [useInterpCurve, if_pos rfl]
  have hlin : useInterpCurve "linear" (p1 - p0)
      = some (fun t : ℕ => 1 - (t : ℝ) / ((p1 - p0 : ℕ) : ℝ)) := by
    rw [useInterpCurve, if_neg (by decide), if_pos rfl]
  have hcosface : useInterpCurve "cos2" (p1 - p0)
      = some (fun t : ℕ => Real.cos ((t : ℝ) * (Real.pi / 2) / ((p1 - p0 : ℕ) : ℝ)) ^ 2) := by
    rw [useInterpCurve, if_neg (by decide), if_neg (by decide)]
  have hcos : useInterpCurve "cos2" (p1 - p0)
      = some (fun t : ℕ => Real.cos (Real.pi / 2 * ((t : ℝ) / ((p1 - p0 : ℕ) : ℝ))) ^ 2) := by
    rw [hcosface]
    refine congrArg some (funext fun t => ?_)
    congr 1
    ring_nf
  have hhann : useInterpCurve "hann" (p1 - p0) = useInterpCurve "cos2" (p1 - p0) := by
    unfold useInterpCurve
    rw [if_neg (by decide), if_neg (by decide), if_neg (by decide), if_neg (by decide)]
  have hlin0 : ∀ f, useInterpCurve "linear" (p1 - p0) = some f → f 0 = 1 := by
    intro f hf
    rw [hlin] at hf
    injection hf with h
    rw [← h]
    norm_num
  have hcos0 : ∀ f, useInterpCurve "cos2" (p1 - p0) = some f → f 0 = 1 := by
    intro f hf
    rw [hcos] at hf
    injection hf with h
    rw [← h]
    norm_num
  have hhann0 : ∀ f, useInterpCurve "hann" (p1 - p0) = some f → f 0 = 1 := by
    intro f hf
    rw [hhann] at hf
    exact hcos0 f hf
  refine ⟨hzero, hlin, hcos, hhann, hlin0, hcos0, hhann0, fun interp => ?_⟩
  unfold useInterpCurve
  by_cases hz : interp = "zero"
  · rw [if_pos hz]
    rfl
  rw [if_neg hz]
  by_cases hl : interp = "linear"
  · rw [if_pos hl]
    simp [blendSample]
  · rw [if_neg hl]
    simp [blendSample]

/-- Witness for C7: adjacent control points 0 and 2 with values 3 and 5. -/
theorem blend_weight_formulas_witness :
    (0 : ℕ) < 2 ∧ useInterpCurve "zero" (2 - 0) = none :=
  ⟨by decide, (blend_weight_formulas 0 2 (by decide) 3 5).1⟩

/-! The `feed_generator` loop when no samples are requested or only one
control point exists: the interpolation loop emits nothing and leaves the
cursor in place. -/

theorem not_pos_sub_of_le {a b c : ℕ} (h : a ≤ c) (hm : b ≤ a) : ¬ 0 < b - c := by
  omega

theorem phase2Step_stuck (cp : List ℕ) (vals : ℕ → ℝ) (interp : String) (stop : ℕ)
    (segs : List (List ℝ)) (s : I2St) (li : ℕ) (h : stop ≤ s.pos) :
    ∃ s', phase2Step cp vals interp stop (segs, s) li = (segs, s') ∧ s'.pos = s.pos := by
  simp only [phase2Step]
  by_cases hc : li ≠ s.leftIdx ∨ s.right = none
  · rw [if_pos hc]
    by_cases hr : s.right ≠ none
    · rw [if_pos hr, if_neg (not_pos_sub_of_le h (min_le_left _ _))]
      exact ⟨_, rfl, rfl⟩
    · rw [if_neg hr, if_neg (not_pos_sub_of_le h (min_le_left _ _))]
      exact ⟨_, rfl, rfl⟩
  · rw [if_neg hc, if_neg (not_pos_sub_of_le h (min_le_left _ _))]
    exact ⟨_, rfl, rfl⟩

theorem phase2_fold_stuck (cp : List ℕ) (vals : ℕ → ℝ) (interp : String) (stop : ℕ) :
    ∀ (l : List ℕ) (segs : List (List ℝ)) (s : I2St), stop ≤ s.pos →
      ∃ s', l.foldl (phase2Step cp vals interp stop) (segs, s) = (segs, s')
        ∧ s'.pos = s.pos := by
  intro l
  induction l with
  | nil =>
    intro segs s h
    exact ⟨s, rfl, rfl⟩
  | cons a l ih =>
    intro segs s h
    obtain ⟨s1, hstep, hpos⟩ := phase2Step_stuck cp vals interp stop segs s a h
    obtain ⟨s2, hfold, hpos2⟩ := ih segs s1 (by omega)
    exact ⟨s2, by rw [List.foldl_cons, hstep, hfold], by omega⟩

theorem phase2_fold_fst (cp : List ℕ) (vals : ℕ → ℝ) (interp : String) (stop : ℕ)
    {l : List ℕ} {segs : List (List ℝ)} {s : I2St} (h : stop ≤ s.pos) :
    (l.foldl (phase2Step cp vals interp stop) (segs, s)).1 = segs := by
  obtain ⟨s', heq, _⟩ := phase2_fold_stuck cp vals interp stop l segs s h
  rw [heq]

theorem phase2_fold_pos (cp : List ℕ) (vals : ℕ → ℝ) (interp : String) (stop : ℕ)
    {l : List ℕ} {segs : List (List ℝ)} {s : I2St} (h : stop ≤ s.pos) :
    (l.foldl (phase2Step cp vals interp stop) (segs, s)).2.pos = s.pos := by
  obtain ⟨s', heq, hp⟩ := phase2_fold_stuck cp vals interp stop l segs s h
  rw [heq]
  exact hp

theorem feedGen_zero_fst (cp : List ℕ) (vals : ℕ → ℝ) (interp : String) (s0 : I2St) :
    (feedGen cp vals interp s0 0).1
      = if s0.pos < cp.getD s0.leftIdx 0 then [([] : List ℝ)] else [] := by
  simp only [feedGen]
  by_cases hl0 : s0.left = none
  · rw [if_pos hl0]
    set sA : I2St := { s0 with left := some (vals (cp.getD 0 0)), right := if cp.length = 1 then some (vals (cp.getD 0 0)) else s0.right } with hsA
    have hApos : sA.pos = s0.pos := rfl
    have hAidx : sA.leftIdx = s0.leftIdx := rfl
    by_cases hp : sA.pos < cp.getD sA.leftIdx 0
    · rw [if_pos hp, if_pos (show s0.pos < cp.getD s0.leftIdx 0 from hp)]
      simp only [Nat.min_zero, Nat.add_zero, List.replicate_zero]
      have hle : s0.pos ≤ sA.pos := le_of_eq hApos.symm
      rw [phase2_fold_fst cp vals interp s0.pos hle,
        phase2_fold_pos cp vals interp s0.pos hle,
        if_neg (fun hand => absurd hand.2 (by omega))]
      simp
    · rw [if_neg hp, if_neg (show ¬ s0.pos < cp.getD s0.leftIdx 0 from hp)]
      simp only [Nat.add_zero]
      have hle : s0.pos ≤ sA.pos := le_of_eq hApos.symm
      rw [phase2_fold_fst cp vals interp s0.pos hle,
        phase2_fold_pos cp vals interp s0.pos hle,
        if_neg (fun hand => absurd hand.2 (by omega))]
      simp
  · rw [if_neg hl0]
    by_cases hp : s0.pos < cp.getD s0.leftIdx 0
    · rw [if_pos hp, if_pos hp]
      simp only [Nat.min_zero, Nat.add_zero, List.replicate_zero]
      have hle : s0.pos ≤ s0.pos := le_refl _
      rw [phase2_fold_fst cp vals interp s0.pos hle,
        phase2_fold_pos cp vals interp s0.pos hle,
        if_neg (fun hand => absurd hand.2 (by omega))]
      simp
    · rw [if_neg hp, if_neg hp]
      simp only [Nat.add_zero]
      have hle : s0.pos ≤ s0.pos := le_refl _
      rw [phase2_fold_fst cp vals interp s0.pos hle,
        phase2_fold_pos cp vals interp s0.pos hle,
        if_neg (fun hand => absurd hand.2 (by omega))]
      simp

/-- C10: calling `_Interp2.feed` with a request of zero positions fails with
the `assert out_arrays is not None` assertion error exactly when the cursor
position is at or past the current left control point (the generator then
yields no segments); it never returns empty arrays in that state. -/
theorem feed_zero_assert (cp : List ℕ) (vals : ℕ → ℝ) (interp : String) (s0 : I2St) :
    isErr (interpFeed cp vals interp s0 0) = true ↔ cp.getD s0.leftIdx 0 ≤ s0.pos := by
  simp only [interpFeed]
  rw [feedGen_zero_fst]
  by_cases hp : s0.pos < cp.getD s0.leftIdx 0
  · rw [if_pos hp, if_neg (by simp)]
    simp only [isErr, Bool.false_eq_true, false_iff]
    omega
  · rw [if_neg hp, if_pos (by simp)]
    simp only [isErr, true_iff]
    omega

/-- Witness for C10's assertion-error direction: a single control point at
position 0 with the cursor at the start. -/
theorem feed_zero_assert_witness :
    isErr (interpFeed [0] (fun _ => (1 : ℝ)) "hann" ⟨0, 0, none, none⟩ 0) = true :=
  (feed_zero_assert [0] (fun _ => (1 : ℝ)) "hann" ⟨0, 0, none, none⟩).2 (by decide)

theorem feedGen_phase0 (cp : List ℕ) (vals : ℕ → ℝ) (interp : String) (s0 : I2St)
    (n : ℕ) (hl0 : s0.left = none) :
    feedGen cp vals interp s0 n
      = feedGen cp vals interp { s0 with left := some (vals (cp.getD 0 0)), right := if cp.length = 1 then some (vals (cp.getD 0 0)) else s0.right } n := by
  simp only [feedGen]
  have hno : ¬ (({ s0 with left := some (vals (cp.getD 0 0)), right := if cp.length = 1 then some (vals (cp.getD 0 0)) else s0.right } : I2St).left = none) := by
    simp
  rw [if_pos hl0, if_neg hno]

theorem feedGen_single (p : ℕ) (vals : ℕ → ℝ) (interp : String) (sA : I2St)
    (n : ℕ) (hn : 1 ≤ n) (hidx : sA.leftIdx = 0)
    (hL : sA.left = some (vals p)) (hR : sA.right = some (vals p)) :
    (feedGen [p] vals interp sA n).1.flatten = List.replicate n (vals p)
      ∧ (feedGen [p] vals interp sA n).1 ≠ [] := by
  have hgd : ([p] : List ℕ).getD sA.leftIdx 0 = p := by rw [hidx]; rfl
  simp only [feedGen]
  have hpz : ¬ (sA.left = none) := by rw [hL]; simp
  rw [if_neg hpz]
  have hsri : ((([p] : List ℕ).findIdx? fun q => decide (sA.pos + n ≤ q)).getD
      (([p] : List ℕ).length - 1)) = 0 := by
    by_cases h : sA.pos + n ≤ p <;> simp [List.findIdx?_cons, h]
  rw [hsri]
  simp only [Nat.zero_sub, List.range'_zero, List.foldl_nil]
  rw [hgd]
  by_cases hp : sA.pos < p
  · rw [if_pos hp, hL]
    dsimp only
    rw [hgd]
    rcases Nat.lt_or_ge (p - sA.pos) n with hnb | hnb
    · rw [min_eq_left (le_of_lt hnb)]
      rw [if_pos (⟨by omega, by omega⟩ :
        p ≤ sA.pos + (p - sA.pos) ∧ 0 < sA.pos + n - (sA.pos + (p - sA.pos)))]
      rw [hR]
      constructor
      · simp only [Option.getD_some, List.nil_append, List.singleton_append,
          List.cons_append, List.flatten_cons, List.flatten_nil, List.append_nil]
        rw [← List.replicate_add]
        congr 1
        omega
      · simp
    · rw [min_eq_right hnb]
      rw [if_neg (fun hand => absurd hand.2 (by omega) :
        ¬ (p ≤ sA.pos + n ∧ 0 < sA.pos + n - (sA.pos + n)))]
      constructor
      · simp
      · simp
  · rw [if_neg hp]
    dsimp only
    rw [hgd]
    rw [if_pos (⟨by omega, by omega⟩ : p ≤ sA.pos ∧ 0 < sA.pos + n - sA.pos)]
    rw [hR]
    have hcnt : sA.pos + n - sA.pos = n := by omega
    rw [hcnt]
    constructor
    · simp
    · simp

theorem single_point_hold_aux (p : ℕ) (vals : ℕ → ℝ) (interp : String) (sA : I2St)
    (n : ℕ) (hn : 1 ≤ n) (hidx : sA.leftIdx = 0)
    (hL : sA.left = some (vals p)) (hR : sA.right = some (vals p)) :
    ∃ s1, interpFeed [p] vals interp sA n = .ok (List.replicate n (vals p), s1) := by
  obtain ⟨hfl, hne⟩ := feedGen_single p vals interp sA n hn hidx hL hR
  simp only [interpFeed]
  rw [if_neg (by simp only [List.isEmpty_iff]; exact hne)]
  rw [hfl]
  exact ⟨_, rfl⟩

/-- C6: for an interpolator holding a single control point at any position
`p` with value `v`, requesting the next `n` positions (any `n ≥ 1`, from any
reachable cursor state) materializes a constant array equal to `v` at all
`n` requested positions, regardless of `p`. -/
theorem single_point_hold (p : ℕ) (vals : ℕ → ℝ) (interp : String) (s0 : I2St)
    (n : ℕ) (hn : 1 ≤ n) (hidx : s0.leftIdx = 0)
    (hcache : s0.left = none ∨ (s0.left = some (vals p) ∧ s0.right = some (vals p))) :
    ∃ s1, interpFeed [p] vals interp s0 n = .ok (List.replicate n (vals p), s1) := by
  rcases hcache with hl0 | ⟨hL, hR⟩
  · have hre : interpFeed [p] vals interp s0 n
        = interpFeed [p] vals interp { s0 with left := some (vals (([p] : List ℕ).getD 0 0)), right := if ([p] : List ℕ).length = 1 then some (vals (([p] : List ℕ).getD 0 0)) else s0.right } n := by
      simp only [interpFeed]
      rw [feedGen_phase0 [p] vals interp s0 n hl0]
    rw [hre]
    exact single_point_hold_aux p vals interp _ n hn hidx
      (by show some (vals (([p] : List ℕ).getD 0 0)) = some (vals p); rfl)
      (by show (if ([p] : List ℕ).length = 1
            then some (vals (([p] : List ℕ).getD 0 0)) else s0.right) = some (vals p)
          rw [if_pos (show ([p] : List ℕ).length = 1 from rfl)]
          rfl)
  · exact single_point_hold_aux p vals interp s0 n hn hidx hL hR

/-- Witness for C6: a single control point at position 3 with constant value
2, requesting 2 positions from the initial cursor state. -/
theorem single_point_hold_witness :
    ∃ s1, interpFeed [3] (fun _ => (2 : ℝ)) "zero" ⟨0, 0, none, none⟩ 2
      = .ok (List.replicate 2 2, s1) :=
  single_point_hold 3 (fun _ => (2 : ℝ)) "zero" ⟨0, 0, none, none⟩ 2
    (by decide) rfl (Or.inl rfl)

end OLA
